import Mathlib

/-!
Shallow embedding of the `hookup` data-mapping library (TypeScript).

The JavaScript runtime is modelled explicitly: values (`JsVal`) are either
primitives or references into a mutable heap (`Heap`) of objects and arrays,
so that aliasing and in-place mutation behave as in the source.  Machine
numbers are modelled as `Int` (every number occurring in the library and its
tests is an integer).  Code that can throw returns `Except String`.

Embedded source files:
  * `src/utils.ts`    — type predicates, `get`, `set`, `getFieldValue`
  * `src/validators.ts` — `minValidator`, `Validators.mergeValidators`,
    `Validators.compose`, `Validators.mergeErrors`, `isPresent`
  * the resolver (`getActionType`, `resolveSchema`, `hookup`)
-/

namespace Hookup

abbrev Addr := Nat

/-- A JavaScript value: primitives plus references into the heap. -/
inductive JsVal where
  | vNull
  | vUndef
  | vNum (n : Int)
  | vStr (s : String)
  | vBool (b : Bool)
  | vRef (a : Addr)
deriving DecidableEq

/-- A heap cell: a plain object (ordered own fields) or an array
(elements, plus named own properties such as `arr['-3']`). -/
inductive HObj where
  | obj (fields : List (String × JsVal))
  | arr (elems : List JsVal) (props : List (String × JsVal))
deriving DecidableEq

/-- The mutable JS heap; an address is an index into `cells`. -/
structure Heap where
  cells : List HObj
deriving DecidableEq

def Heap.get? (h : Heap) (a : Addr) : Option HObj := h.cells.get? a

def Heap.size (h : Heap) : Nat := h.cells.length

def Heap.upd (h : Heap) (a : Addr) (o : HObj) : Heap := ⟨h.cells.set a o⟩

/-- Allocate a fresh cell; returns the new heap and the fresh address. -/
def Heap.alloc (h : Heap) (o : HObj) : Heap × Addr :=
  (⟨h.cells ++ [o]⟩, h.cells.length)

abbrev EX := Except String

/-! ### Ordered association lists (JS object own-property tables) -/

def assocGet (k : String) : List (String × JsVal) → Option JsVal
  | [] => none
  | (k', v) :: rest => if k' = k then some v else assocGet k rest

/-- JS property write: updating an existing key keeps its position
(JS objects preserve insertion order); a new key is appended. -/
def assocSet (k : String) (v : JsVal) : List (String × JsVal) → List (String × JsVal)
  | [] => [(k, v)]
  | (k', v') :: rest => if k' = k then (k, v) :: rest else (k', v') :: assocSet k v rest

/-! ### String helpers

`String.splitOn` and friends are compiled by well-founded recursion and do
not reduce inside the kernel, so the few string operations the source needs
(`key.split('.')`, `parseInt` round-tripping, `String(i)` for array indices)
are implemented structurally over the character list. -/

/-- `s.split('.')` on the character list; `''.split('.') == ['']`. -/
def splitDotChars : List Char → List (List Char)
  | [] => [[]]
  | c :: rest =>
    match splitDotChars rest with
    | [] => [[c]]
    | g :: gs => if c = '.' then [] :: g :: gs else (c :: g) :: gs

def splitDot (s : String) : List String :=
  (splitDotChars s.data).map (fun l => ⟨l⟩)

def digitsVal (l : List Char) : Nat :=
  l.foldl (fun n c => 10 * n + (c.toNat - '0'.toNat)) 0

/-- Parse `s` as a canonical (round-tripping) natural number literal:
nonempty, all digits, no leading zero except `"0"` itself.  This is
exactly when JS `String(parseInt(s,10)) === s` for a nonnegative result,
and also exactly when `s` is a JS array-index property key. -/
def canonNat? (s : String) : Option Nat :=
  let l := s.data
  if l.isEmpty then none
  else if !l.all Char.isDigit then none
  else if l.headD ' ' = '0' && l.length != 1 then none
  else some (digitsVal l)

/-- Parse `s` as a canonical integer literal (`parseInt` round-trip):
an optional `'-'` (not `"-0"`) followed by a canonical natural. -/
def canonInt? (s : String) : Option Int :=
  match s.data with
  | '-' :: rest =>
    match canonNat? ⟨rest⟩ with
    | some n => if n = 0 then none else some (-(n : Int))
    | none => none
  | _ => (canonNat? s).map (fun n => (n : Int))

def digitChar (d : Nat) : Char :=
  match d % 10 with
  | 0 => '0' | 1 => '1' | 2 => '2' | 3 => '3' | 4 => '4'
  | 5 => '5' | 6 => '6' | 7 => '7' | 8 => '8' | _ => '9'

def natToCharsAux : Nat → Nat → List Char → List Char
  | 0, _, acc => acc
  | fuel + 1, n, acc =>
    if n < 10 then digitChar n :: acc
    else natToCharsAux fuel (n / 10) (digitChar (n % 10) :: acc)

/-- JS `String(i)` for a nonnegative array index. -/
def natToString (n : Nat) : String := ⟨natToCharsAux (n + 1) n []⟩

/-! ### Type predicates (`src/utils.ts`) -/

def isNullJs : JsVal → Bool
  | .vNull => true
  | _ => false

def isUndefJs : JsVal → Bool
  | .vUndef => true
  | _ => false

/-- `isNil = (o) => isNull(o) || isUndefined(o)` -/
def isNilJs (v : JsVal) : Bool := isNullJs v || isUndefJs v

/-- `isPresent = (o) => !isNull(o) || !isUndefined(o)` — transcribed
verbatim from `src/utils.ts` line 31. -/
def isPresentJs (v : JsVal) : Bool := !isNullJs v || !isUndefJs v

def isNumberJs : JsVal → Bool
  | .vNum _ => true
  | _ => false

def isStringJs : JsVal → Bool
  | .vStr _ => true
  | _ => false

/-- `Array.isArray`. -/
def isArrayJs (h : Heap) : JsVal → Bool
  | .vRef a =>
    match h.get? a with
    | some (.arr _ _) => true
    | _ => false
  | _ => false

/-- `isPlainObject` — `Object.prototype.toString` tag is `object`,
which holds for plain objects but not for arrays. -/
def isPlainObjectJs (h : Heap) : JsVal → Bool
  | .vRef a =>
    match h.get? a with
    | some (.obj _) => true
    | _ => false
  | _ => false

/-- JS property read `v[key]` for a value that is not null/undefined
(callers guard); absent properties read as `undefined`.  Array reads use
the canonical-index coercion; strings expose `length` and their indices. -/
def jsIndex (h : Heap) (v : JsVal) (key : String) : JsVal :=
  match v with
  | .vRef a =>
    match h.get? a with
    | some (.obj fields) => (assocGet key fields).getD .vUndef
    | some (.arr elems props) =>
      match canonNat? key with
      | some i => elems.getD i .vUndef
      | none =>
        if key = "length" then .vNum elems.length
        else (assocGet key props).getD .vUndef
    | none => .vUndef
  | .vStr s =>
    match canonNat? key with
    | some i => if i < s.data.length then .vStr ⟨[s.data.getD i ' ']⟩ else .vUndef
    | none => if key = "length" then .vNum s.data.length else .vUndef
  | _ => (.vUndef)

/-- `Object.prototype.hasOwnProperty.call(v, key)` for non-nil `v`. -/
def hasOwnJs (h : Heap) (v : JsVal) (key : String) : Bool :=
  match v with
  | .vRef a =>
    match h.get? a with
    | some (.obj fields) => (assocGet key fields).isSome
    | some (.arr elems props) =>
      match canonNat? key with
      | some i => i < elems.length
      | none => key = "length" || (assocGet key props).isSome
    | none => false
  | .vStr s =>
    match canonNat? key with
    | some i => i < s.data.length
    | none => key = "length"
  | _ => false

/-- `isEmptyObject` — `for..in` over own enumerable keys finds none.
`for..in` over null/undefined/numbers/booleans iterates nothing. -/
def isEmptyObjectJs (h : Heap) : JsVal → Bool
  | .vRef a =>
    match h.get? a with
    | some (.obj fields) => fields.isEmpty
    | some (.arr elems props) => elems.isEmpty && props.isEmpty
    | none => true
  | .vStr s => s.data.isEmpty
  | _ => true

/-- `hasLength = (o) => hasOwn(o, 'length') || hasOwn(o, 'size')` -/
def hasLengthJs (h : Heap) : JsVal → Bool
  | .vStr _ => true
  | .vRef a =>
    match h.get? a with
    | some (.arr _ _) => true
    | some (.obj fields) => (assocGet "length" fields).isSome || (assocGet "size" fields).isSome
    | none => false
  | _ => false

/-- `lengthIsZero = (o) => hasLength(o) && o.length === 0` -/
def lengthIsZeroJs (h : Heap) (v : JsVal) : Bool :=
  hasLengthJs h v && (jsIndex h v "length" = .vNum 0)

/-- `isEmpty = (o) => !isNumber(o) && (isNil(o) || isEmptyObject(o) || lengthIsZero(o))`
(`src/utils.ts` lines 50–51, the current variant with the numeric carve-out). -/
def isEmptyJs (h : Heap) (v : JsVal) : Bool :=
  !isNumberJs v && (isNilJs v || isEmptyObjectJs h v || lengthIsZeroJs h v)

/-- JS truthiness. -/
def truthy : JsVal → Bool
  | .vNull => false
  | .vUndef => false
  | .vBool b => b
  | .vNum n => n != 0
  | .vStr s => !s.data.isEmpty
  | .vRef _ => true

/-! ### `get` (`src/utils.ts` lines 113–120)

```ts
export const get = (target, key) => {
  try {
    return key.split('.').reduce((obj, property) => obj[property], target)
  } catch (err) {
    return target   // `target` is value
  }
}
```
Indexing throws exactly when the accumulator is null or undefined. -/

def getSegs (h : Heap) : List String → JsVal → Except Unit JsVal
  | [], v => .ok v
  | s :: rest, v =>
    match v with
    | .vNull => .error ()
    | .vUndef => .error ()
    | v => getSegs h rest (jsIndex h v s)

def get (h : Heap) (target : JsVal) (key : String) : JsVal :=
  match getSegs h (splitDot key) target with
  | .ok v => v
  | .error _ => target

/-! ### `set` (`src/utils.ts` lines 122–161)

```ts
export const set = (target, path, value) => {
  if (isNumber(path)) path = [path]
  if (isEmpty(path)) return target
  function getKey(key) {
    const intKey = parseInt(String(key), 10)
    return intKey.toString() === key ? intKey : key
  }
  if (isString(path)) return set(target, path.split('.').map(getKey), value)
  const currentPath = path[0]
  let currentValue = undefined
  if ((isNumber(path) && Array.isArray(target)) || hasOwn(target, path)) {
    currentValue = target[currentPath]
  }
  if (path.length === 1) {
    if (isUndefined(currentValue)) target[currentPath] = value
    return currentValue
  }
  if (isUndefined(currentValue)) {
    target[currentPath] = isNumber(path[1]) ? [] : {}
  }
  return set(target[currentPath], path.slice(1), value)
}
```
Note the two quirks carried over faithfully: `hasOwn(target, path)` is
called with the whole segment *array*, which JS coerces to the
comma-joined property key; and once the path is an array `isNumber(path)`
is always false. -/

/-- A path segment after `getKey`: `str` is JS `String(key)` (for a number
produced by `getKey` this equals the original segment text, since `getKey`
only converts round-tripping numerals), `isNum` records whether `getKey`
turned it into a number. -/
structure SKey where
  str : String
  isNum : Bool
deriving DecidableEq

def getKey (s : String) : SKey := ⟨s, (canonInt? s).isSome⟩

/-- JS coercion of the segment array to a property key: elements joined
with `','` (as in `hasOwn(target, path)` on an array `path`). -/
def joinKeys : List SKey → String
  | [] => ""
  | [k] => k.str
  | k :: rest => k.str ++ "," ++ joinKeys rest

/-- JS property write `target[key] = v` (no-op on primitives, as in
non-strict mode).  On arrays a canonical-index key writes the element
(extending with holes, which read back as `undefined`); other keys become
named own properties.  (`arr.length = n` never occurs in the library:
array cells only ever receive index keys.) -/
def jsWrite (h : Heap) (target : JsVal) (key : String) (v : JsVal) : Heap :=
  match target with
  | .vRef a =>
    match h.get? a with
    | some (.obj fields) => h.upd a (.obj (assocSet key v fields))
    | some (.arr elems props) =>
      match canonNat? key with
      | some i =>
        if i < elems.length then h.upd a (.arr (elems.set i v) props)
        else h.upd a (.arr (elems ++ List.replicate (i - elems.length) .vUndef ++ [v]) props)
      | none => h.upd a (.arr elems (assocSet key v props))
    | none => h
  | _ => h

/-- The recursive array-path branch of `set`.  Returns the heap and the
function's return value (`currentValue` at the leaf).  `hasOwn` on a
null/undefined target throws. -/
def setGo (h : Heap) (target : JsVal) : List SKey → JsVal → EX (Heap × JsVal)
  | [], _ => .ok (h, target)
  | k :: ks, value =>
    if isNilJs target then .error "TypeError: cannot read hasOwnProperty of nil"
    else
      -- (isNumber(path) && Array.isArray(target)) || hasOwn(target, path):
      -- path is an array here, so isNumber(path) is false.
      let cond := hasOwnJs h target (joinKeys (k :: ks))
      let currentValue := if cond then jsIndex h target k.str else .vUndef
      if ks.isEmpty then
        if currentValue = .vUndef then .ok (jsWrite h target k.str value, .vUndef)
        else .ok (h, currentValue)
      else
        if currentValue = .vUndef then
          let (h₁, f) := h.alloc (if (ks.headD ⟨"", false⟩).isNum then .arr [] [] else .obj [])
          let h₂ := jsWrite h₁ target k.str (.vRef f)
          -- the source re-reads target[currentPath] for the recursive call
          setGo h₂ (jsIndex h₂ target k.str) ks value
        else
          setGo h currentValue ks value

/-- A `path` argument to `set`: a string, a number, or a segment array. -/
inductive SetPath where
  | ps (s : String)
  | pn (n : Int)
  | pl (l : List SKey)

/-- `isEmpty(path)` as evaluated by `set` on its path argument. -/
def pathIsEmptyJs : SetPath → Bool
  | .ps s => s.data.isEmpty
  | .pn _ => false
  | .pl l => l.isEmpty

def set (h : Heap) (target : JsVal) (path₀ : SetPath) (value : JsVal) : EX (Heap × JsVal) :=
  let path := match path₀ with
    | .pn n => SetPath.pl [⟨toString n, true⟩]
    | p => p
  if pathIsEmptyJs path then .ok (h, target)
  else
    match path with
    | .ps s => setGo h target ((splitDot s).map getKey) value
    | .pl l => setGo h target l value
    | .pn _ => .ok (h, target)

/-! ### Field values and validators (`src/utils.ts`, `src/validators.ts`) -/

/-- `getFieldValue = (input) => isPlainObject(input) && 'value' in input ? input.value : input` -/
def getFieldValue (h : Heap) (v : JsVal) : JsVal :=
  match v with
  | .vRef a =>
    match h.get? a with
    | some (.obj fields) =>
      match assocGet "value" fields with
      | some w => w
      | none => v
    | _ => v
  | _ => v

/-- A JS function value: receives the heap and the argument list, may
allocate (or mutate) and returns a value, or throws. -/
abbrev JsFun := Heap → List JsVal → EX (Heap × JsVal)

/-- `minValidator` (`src/validators.ts` lines 188–201): empty or
non-numeric (NaN after `parseFloat`/`length`) inputs pass; otherwise the
numeric value (or `.length` for non-numbers) is compared with `min`, and a
fresh `{min: {min, actual}}` error object is returned on failure. -/
def minValidatorFn (mn : Int) : JsFun := fun h args =>
  let input := args.headD .vUndef
  let inputValue := getFieldValue h input
  if isEmptyJs h inputValue || isEmptyJs h (.vNum mn) then .ok (h, .vNull)
  else
    let valN : Option Int :=
      match inputValue with
      | .vNum n => some n
      | v =>
        match jsIndex h v "length" with
        | .vNum k => some k
        | _ => none
    match valN with
    | some value =>
      if value < mn then
        let (h₁, inner) := h.alloc (.obj [("min", .vNum mn), ("actual", inputValue)])
        let (h₂, outer) := h₁.alloc (.obj [("min", .vRef inner)])
        .ok (h₂, .vRef outer)
      else .ok (h, .vNull)
    | none => .ok (h, .vNull)

/-- An entry of a validator list as a JS value: a function, `null`,
`undefined`, or some other non-callable value. -/
inductive VEntry where
  | vnull
  | vundef
  | vfn (f : JsFun)
  | other (tag : String)

def isNullE : VEntry → Bool
  | .vnull => true
  | _ => false

def isUndefE : VEntry → Bool
  | .vundef => true
  | _ => false

/-- `isPresent` as applied to a validator-list entry:
`!isNull(o) || !isUndefined(o)`. -/
def isPresentE (e : VEntry) : Bool := !isNullE e || !isUndefE e

/-- Invoking a validator-list entry as a function (`validator(input)`);
throws unless the entry is callable. -/
def applyEntry (e : VEntry) (h : Heap) (input : JsVal) : EX (Heap × JsVal) :=
  match e with
  | .vfn f => f h [input]
  | _ => .error "TypeError: validator is not a function"

/-- The body of the closure returned by `Validators.mergeValidators`
(and `executeValidators`): run every entry on the same input, collecting
the results in order. -/
def runEntries : List VEntry → Heap → JsVal → EX (Heap × List JsVal)
  | [], h, _ => .ok (h, [])
  | e :: rest, h, input =>
    match applyEntry e h input with
    | .error msg => .error msg
    | .ok (h₁, r) =>
      match runEntries rest h₁ input with
      | .error msg => .error msg
      | .ok (h₂, rs) => .ok (h₂, r :: rs)

/-- `Validators.mergeValidators(...validators)` (`src/validators.ts`
lines 100–112): drop entries that are strictly `!== null`, return `null`
if none remain, otherwise a closure pushing each validator's result into
an array. -/
def mergeValidators (validators : List VEntry) :
    Option (Heap → JsVal → EX (Heap × List JsVal)) :=
  let validatorArr := validators.filter (fun v => !isNullE v)
  if validatorArr.isEmpty then none
  else some (fun h value => runEntries validatorArr h value)

/-- `{...res, ...errors}`: spread the own enumerable properties of a JS
value into an accumulating field list (strings spread their characters,
arrays their elements; primitives contribute nothing). -/
def spreadInto (h : Heap) (res : List (String × JsVal)) (e : JsVal) : List (String × JsVal) :=
  match e with
  | .vRef a =>
    match h.get? a with
    | some (.obj fields) => fields.foldl (fun r kv => assocSet kv.1 kv.2 r) res
    | some (.arr elems props) =>
      let withIdx := (elems.enum.map (fun p => (natToString p.1, p.2)))
      (withIdx ++ props).foldl (fun r kv => assocSet kv.1 kv.2 r) res
    | none => res
  | .vStr s =>
    (s.data.enum.map (fun p => (natToString p.1, JsVal.vStr ⟨[p.2]⟩))).foldl
      (fun r kv => assocSet kv.1 kv.2 r) res
  | _ => res

/-- `Validators.mergeErrors` (`src/validators.ts` lines 75–85): fold the
results with `res = errors != null ? {...res, ...errors} : res`, then
`null` if no keys were collected. -/
def mergeErrors (h : Heap) (arrayOfErrors : List JsVal) : Option (List (String × JsVal)) :=
  let res := arrayOfErrors.foldl (fun r e => if isNilJs e then r else spreadInto h r e) []
  if res.isEmpty then none else some res

/-- `Validators.compose` (`src/validators.ts` lines 144–154): filter with
`isPresent`, return `null` if nothing remains, otherwise a validator
running every kept entry and merging the error maps. -/
def compose (validators : List VEntry) :
    Option (Heap → JsVal → EX (Heap × Option (List (String × JsVal)))) :=
  let presentValidators := validators.filter isPresentE
  if presentValidators.length = 0 then none
  else some (fun h input =>
    match runEntries presentValidators h input with
    | .error msg => .error msg
    | .ok (h₁, results) => .ok (h₁, mergeErrors h₁ results))

/-! ### The schema resolver (`getActionType`, `resolveSchema`, `hookup`) -/

/-- A schema accessor value, by its runtime shape: a path string, a
callable, an array (aggregator), a plain object (selector or nested
schema), `null`/`undefined`, or any other unsupported value. -/
inductive SVal where
  | sstr (s : String)
  | sfun (f : JsFun)
  | sarr (elems : List SVal)
  | sobj (fields : List (String × SVal))
  | svnull
  | svundef
  | sother (tag : String)

def assocGetS (k : String) : List (String × SVal) → Option SVal
  | [] => none
  | (k', v) :: rest => if k' = k then some v else assocGetS k rest

/-- `isFieldSelector` (`src/utils.ts` lines 192–198): a plain object with
a `path` key and a `validators` or `transform` key. -/
def isFieldSelectorS : SVal → Bool
  | .sobj fields =>
    (assocGetS "path" fields).isSome &&
      ((assocGetS "validators" fields).isSome || (assocGetS "transform" fields).isSome)
  | _ => false

inductive FieldAccessorType where
  | FieldPaths
  | FieldFn
  | FieldSelector
  | FieldAggregator
  | FieldEntry
deriving DecidableEq

/-- `getActionType` from the resolver: dispatch by runtime shape in the
source's order (string, function, field selector, array, plain object),
otherwise throw naming the schema key. -/
def getActionType (key : String) : SVal → EX FieldAccessorType
  | .sstr _ => .ok .FieldPaths
  | .sfun _ => .ok .FieldFn
  | .sobj fields =>
    if isFieldSelectorS (.sobj fields) then .ok .FieldSelector else .ok .FieldEntry
  | .sarr _ => .ok .FieldAggregator
  | .svnull => .error ("The value type specified for " ++ key ++ " is not supported.")
  | .svundef => .error ("The value type specified for " ++ key ++ " is not supported.")
  | .sother _ => .error ("The value type specified for " ++ key ++ " is not supported.")

/-- Coerce a `validators` field entry of a selector to a validator-list
entry (every JS value is one of these shapes at runtime). -/
def toVEntry : SVal → VEntry
  | .sfun f => .vfn f
  | .svnull => .vnull
  | .svundef => .vundef
  | .sstr s => .other ("string " ++ s)
  | .sarr _ => .other "array"
  | .sobj _ => .other "object"
  | .sother tag => .other tag

/-- The validator list a selector carries: a single value is wrapped,
an array is taken elementwise (the resolver's
`Array.isArray(fieldSelector.validators) ? ... : [fieldSelector.validators]`). -/
def selValidatorEntries : SVal → List VEntry
  | .sarr es => es.map toVEntry
  | v => [toVEntry v]

/-- `Object.assign(agg, src)` where `agg` is a plain object: copy the own
enumerable properties of `src` into `agg` (no-op for primitives). -/
def jsAssignFrom (h : Heap) (aggAddr : Addr) (src : JsVal) : Heap :=
  match h.get? aggAddr with
  | some (.obj fields) =>
    let fields' := spreadInto h fields src
    h.upd aggAddr (.obj fields')
  | _ => h

/-- One step of the aggregator reduce:
`const valueObj = set(agg, path, get(source, path)); Object.assign(agg, valueObj)`.
Non-string aggregator entries are modelled for the shapes that occur at
runtime as a no-op: `get` with a non-string key throws internally and
returns `source`, and `set` with a null/function/empty-object path takes
the `isEmpty(path)` early return. -/
def aggStep (h : Heap) (source : JsVal) (aggAddr : Addr) (pv : SVal) : EX Heap :=
  match pv with
  | .sstr path =>
    let gv := get h source path
    match set h (.vRef aggAddr) (.ps path) gv with
    | .error msg => .error msg
    | .ok (h₁, ret) => .ok (jsAssignFrom h₁ aggAddr ret)
  | _ => .ok h

def aggGo : List SVal → Heap → JsVal → Addr → EX Heap
  | [], h, _, _ => .ok h
  | pv :: rest, h, source, aggAddr =>
    match aggStep h source aggAddr pv with
    | .error msg => .error msg
    | .ok h₁ => aggGo rest h₁ source aggAddr

/-- The `FieldAggregator` branch: reduce the paths into a fresh object. -/
def aggregatorRun (h : Heap) (source : JsVal) (elems : List SVal) : EX (Heap × JsVal) :=
  let (h₀, agg) := h.alloc (.obj [])
  match aggGo elems h₀ source agg with
  | .error msg => .error msg
  | .ok h₁ => .ok (h₁, .vRef agg)

/-- The `FieldSelector` branch of `resolveSchema`:
fetch `get(source, fieldSelector.path)`, apply `transform` if present,
then if `validators` is present run `Validators.mergeValidators` — whose
result is an *array* of individual validator results, which is always
truthy, so it becomes the field's value; `mergeValidators` returning
`null` makes the call `validatorFn(inputValue)` throw. -/
def selectorRun (h : Heap) (source : JsVal) (fields : List (String × SVal)) :
    EX (Heap × JsVal) :=
  let inputValue₀ := match assocGetS "path" fields with
    | some (.sstr s) => get h source s
    | _ => source
  let step₁ : EX (Heap × JsVal) :=
    match assocGetS "transform" fields with
    | none => .ok (h, inputValue₀)
    | some (.sfun f) => f h [inputValue₀]
    | some _ => .error "TypeError: fieldSelector.transform is not a function"
  match step₁ with
  | .error msg => .error msg
  | .ok (h₁, inputValue) =>
    match assocGetS "validators" fields with
    | none => .ok (h₁, inputValue)
    | some vs =>
      match mergeValidators (selValidatorEntries vs) with
      | none => .error "TypeError: validatorFn is not a function"
      | some vfn =>
        match vfn h₁ inputValue with
        | .error msg => .error msg
        | .ok (h₂, results) =>
          let (h₃, arrAddr) := h₂.alloc (.arr results [])
          if truthy (.vRef arrAddr) then .ok (h₃, .vRef arrAddr)
          else .ok (h₃, inputValue)

/-- One schema entry of `resolveSchema`'s reduce, parameterised by the
resolver used for nested schemas.  The computed value is assigned to the
accumulator object: `obj[k] = value`. -/
def entryStep (recur : List (String × SVal) → Heap → JsVal → EX (Heap × JsVal))
    (k : String) (v : SVal) (h : Heap) (source : JsVal) (acc : Addr) : EX Heap :=
  match getActionType k v with
  | .error msg => .error msg
  | .ok at_ =>
    let valueE : EX (Heap × JsVal) :=
      match at_, v with
      | .FieldFn, .sfun f => f h [source, .vRef acc]
      | .FieldAggregator, .sarr elems => aggregatorRun h source elems
      | .FieldSelector, .sobj fields => selectorRun h source fields
      | .FieldEntry, .sobj fields => recur fields h source
      | .FieldPaths, .sstr s => .ok (h, get h source s)
      | _, _ => .error "unreachable: dispatch shape mismatch"
    match valueE with
    | .error msg => .error msg
    | .ok (h₁, value) => .ok (jsWrite h₁ (.vRef acc) k value)

def goEntries (recur : List (String × SVal) → Heap → JsVal → EX (Heap × JsVal)) :
    List (String × SVal) → Heap → JsVal → Addr → EX Heap
  | [], h, _, _ => .ok h
  | (k, v) :: rest, h, source, acc =>
    match entryStep recur k v h source acc with
    | .error msg => .error msg
    | .ok h₁ => goEntries recur rest h₁ source acc

/-- `resolveSchema`'s body: reduce the entries into a fresh accumulator
object. -/
def resolveBody (recur : List (String × SVal) → Heap → JsVal → EX (Heap × JsVal))
    (schema : List (String × SVal)) (h : Heap) (source : JsVal) : EX (Heap × JsVal) :=
  let (h₀, acc) := h.alloc (.obj [])
  match goEntries recur schema h₀ source acc with
  | .error msg => .error msg
  | .ok h₁ => .ok (h₁, .vRef acc)

/-- `resolveSchema`, with fuel bounding the nesting depth of nested
schemas (the source recurses on strictly smaller schema objects, so any
fuel larger than the nesting depth is enough). -/
def resolveSchemaF : Nat → List (String × SVal) → Heap → JsVal → EX (Heap × JsVal)
  | 0, _, _, _ => .error "maximum call stack size exceeded"
  | fuel + 1, schema, h, source => resolveBody (resolveSchemaF fuel) schema h source

/-- `source.map((o) => resolveSchema(schema, o))`, threading the heap. -/
def mapResolve (fuel : Nat) (schema : List (String × SVal)) :
    List JsVal → Heap → EX (Heap × List JsVal)
  | [], h => .ok (h, [])
  | s :: rest, h =>
    match resolveSchemaF fuel schema h s with
    | .error msg => .error msg
    | .ok (h₁, r) =>
      match mapResolve fuel schema rest h₁ with
      | .error msg => .error msg
      | .ok (h₂, rs) => .ok (h₂, r :: rs)

/-- Elements of `source` when `Array.isArray(source)`. -/
def arrElems? (h : Heap) : JsVal → Option (List JsVal)
  | .vRef a =>
    match h.get? a with
    | some (.arr elems _) => some elems
    | _ => none
  | _ => none

/-- `hookup(schema, source)`: map the resolver over an array source
(producing a fresh result array), otherwise resolve once. -/
def hookup (fuel : Nat) (schema : List (String × SVal)) (h : Heap) (source : JsVal) :
    EX (Heap × JsVal) :=
  match arrElems? h source with
  | some elems =>
    match mapResolve fuel schema elems h with
    | .error msg => .error msg
    | .ok (h₁, rs) =>
      let (h₂, b) := h₁.alloc (.arr rs [])
      .ok (h₂, .vRef b)
  | none => resolveSchemaF fuel schema h source

/-! ### Reading a heap structure back as a pure tree (for stating
concrete results) -/

inductive JsTree where
  | tNull
  | tUndef
  | tNum (n : Int)
  | tStr (s : String)
  | tBool (b : Bool)
  | tObj (fields : List (String × JsTree))
  | tArr (elems : List JsTree)
  | tBad

def readBack : Nat → Heap → JsVal → JsTree
  | 0, _, _ => .tBad
  | fuel + 1, h, v =>
    match v with
    | .vNull => .tNull
    | .vUndef => .tUndef
    | .vNum n => .tNum n
    | .vStr s => .tStr s
    | .vBool b => .tBool b
    | .vRef a =>
      match h.get? a with
      | some (.obj fields) => .tObj (fields.map (fun kv => (kv.1, readBack fuel h kv.2)))
      | some (.arr elems _) => .tArr (elems.map (fun e => readBack fuel h e))
      | none => .tBad

/-! ### Key discipline and frame predicates

`set`'s `hasOwn(target, path)` coerces the segment array to the
comma-joined property key, so the behaviour of `set` (and hence the
resolver's frame properties) changes in the presence of comma-bearing
keys.  The predicates below characterise the comma-free fragment. -/

/-- The string contains no comma. -/
def noComma (s : String) : Bool := !s.data.contains ','

/-- Every own-property name of the cell is comma-free. -/
def cellKeysOK : HObj → Bool
  | .obj fields => fields.all (fun kv => noComma kv.1)
  | .arr _ props => props.all (fun kv => noComma kv.1)

/-- Every cell of the heap has comma-free own-property names. -/
def heapKeysOK (h : Heap) : Bool := h.cells.all cellKeysOK

/-- Propositional form of `heapKeysOK`, per address. -/
def HeapOK (h : Heap) : Prop := ∀ a o, h.get? a = some o → cellKeysOK o = true

/-- `h'` extends `h` and agrees with it strictly below `n₀`. -/
def Frames (n₀ : Nat) (h h' : Heap) : Prop :=
  h.size ≤ h'.size ∧ ∀ b, b < n₀ → h'.get? b = h.get? b

/-- A JS function that does not mutate pre-existing cells and keeps the
comma-free key discipline on anything it allocates (every built-in
validator and every transform of the form `(x) => f(x)` is like this). -/
def GoodFun (f : JsFun) : Prop :=
  ∀ h args h' v, HeapOK h → f h args = .ok (h', v) →
    h.size ≤ h'.size ∧ (∀ b, b < h.size → h'.get? b = h.get? b) ∧ HeapOK h'

/-- The schema accessors covered by the frame claim: path strings,
aggregator path lists whose segments are comma-free, selectors whose
transform/validators do not mutate, and nested schemas with comma-free
field names built from the same accessors. -/
inductive GoodAcc : SVal → Prop where
  | path (s : String) : GoodAcc (.sstr s)
  | agg (elems : List SVal)
      (hp : ∀ e ∈ elems, ∃ p, e = SVal.sstr p ∧ ∀ s ∈ splitDot p, noComma s = true) :
      GoodAcc (.sarr elems)
  | selector (fields : List (String × SVal))
      (hsel : isFieldSelectorS (.sobj fields) = true)
      (htr : ∀ f, assocGetS "transform" fields = some (.sfun f) → GoodFun f)
      (hval : ∀ vs, assocGetS "validators" fields = some vs →
        ∀ e ∈ selValidatorEntries vs, ∀ f, e = VEntry.vfn f → GoodFun f) :
      GoodAcc (.sobj fields)
  | nested (fields : List (String × SVal))
      (hsel : isFieldSelectorS (.sobj fields) = false)
      (hkeys : ∀ kv ∈ fields, noComma kv.1 = true)
      (hrec : ∀ kv ∈ fields, GoodAcc kv.2) :
      GoodAcc (.sobj fields)

/-- A schema of the frame claim's class: comma-free destination field
names, every accessor in the covered class. -/
def GoodSchema (schema : List (String × SVal)) : Prop :=
  ∀ kv ∈ schema, noComma kv.1 = true ∧ GoodAcc kv.2

/-- Specification-side rendering of `hookup` on an array source: resolve
every element independently, left to right, collecting the results in
order (modelled from the spec: "map `resolveSchema(schema, ·)` over each
element, returning an ordered sequence of results in the same order"). -/
inductive ResolvesEach (fuel : Nat) (schema : List (String × SVal)) :
    Heap → List JsVal → Heap → List JsVal → Prop where
  | nil (h : Heap) : ResolvesEach fuel schema h [] h []
  | cons {h h₁ h₂ : Heap} {s r : JsVal} {ss rs : List JsVal}
      (hs : resolveSchemaF fuel schema h s = .ok (h₁, r))
      (hrest : ResolvesEach fuel schema h₁ ss h₂ rs) :
      ResolvesEach fuel schema h (s :: ss) h₂ (r :: rs)

/-! ### Concrete fixtures (from the repository's test data) -/

/-- `(src) => src.address.city` — member access throws on a nil base. -/
def cityFn : JsFun := fun h args =>
  let src := args.headD .vUndef
  if isNilJs src then .error "TypeError: cannot read address of nil"
  else
    let addr := jsIndex h src "address"
    if isNilJs addr then .error "TypeError: cannot read city of nil"
    else .ok (h, jsIndex h addr "city")

/-- Heap for the source `{_firstName:'Miro', Age:10, address:{city:'Astoria'}}`;
the source is `vRef 0`. -/
def c1Heap : Heap :=
  ⟨[.obj [("_firstName", .vStr "Miro"), ("Age", .vNum 10), ("address", .vRef 1)],
    .obj [("city", .vStr "Astoria")]]⟩

/-- Schema `{name:'_firstName', age:{path:'Age', validators: min(12)}, city:(src)=>src.address.city}`. -/
def c1Schema : List (String × SVal) :=
  [("name", .sstr "_firstName"),
   ("age", .sobj [("path", .sstr "Age"), ("validators", .sfun (minValidatorFn 12))]),
   ("city", .sfun cityFn)]

/-- What the resolver actually produces for `c1Schema` on `c1Heap`. -/
def c1ActualTree : JsTree :=
  .tObj [("name", .tStr "Miro"),
         ("age", .tArr [.tObj [("min", .tObj [("min", .tNum 12), ("actual", .tNum 10)])]]),
         ("city", .tStr "Astoria")]

/-- The result the claim asserts (`age` a bare merged error mapping). -/
def c1ClaimedTree : JsTree :=
  .tObj [("name", .tStr "Miro"),
         ("age", .tObj [("min", .tObj [("min", .tNum 12), ("actual", .tNum 10)])]),
         ("city", .tStr "Astoria")]

/-- Source `{Age: 20}` — the selector's `min(12)` validator passes. -/
def c2Heap : Heap := ⟨[.obj [("Age", .vNum 20)]]⟩

def c2Schema : List (String × SVal) :=
  [("age", .sobj [("path", .sstr "Age"), ("validators", .sfun (minValidatorFn 12))])]

/-- `(v) => v + 1` — a pure numeric transform for selector tests. -/
def add1Fn : JsFun := fun h args =>
  match args.headD .vUndef with
  | .vNum n => .ok (h, .vNum (n + 1))
  | v => .ok (h, v)

/-- An empty target object at address 0. -/
def c4Heap : Heap := ⟨[.obj []]⟩

/-- Target `{a: {x: 1}}` — `a` is an existing branch node. -/
def c4HeapB : Heap := ⟨[.obj [("a", .vRef 1)], .obj [("x", .vNum 1)]]⟩

/-- Target `{a: 1}` — the path `b` has no value, with `b` a final segment. -/
def c5Heap : Heap := ⟨[.obj [("a", .vNum 1)]]⟩

/-- Target `{a: null}` — walking `'a.b'` indexes into `null` and throws. -/
def c5HeapB : Heap := ⟨[.obj [("a", .vNull)]]⟩

/-- A heap holding `{}` at address 0 and `[]` at address 1. -/
def c6Heap : Heap := ⟨[.obj [], .arr [] []]⟩

/-- Source `{a: {b: {q: 1}}}` at `vRef 0`. -/
def c9Heap : Heap :=
  ⟨[.obj [("a", .vRef 1)], .obj [("b", .vRef 2)], .obj [("q", .vNum 1)]]⟩

/-- An aggregator whose middle path `'a,b,x'` plants the comma-joined own
key that makes the later `set(agg, 'a.b.x', …)` recurse into the aliased
`source.a` and overwrite `source.a.b`. -/
def c9Schema : List (String × SVal) :=
  [("loc", .sarr [.sstr "a", .sstr "a,b,x", .sstr "a.b.x"])]

/-- A frame-class schema: a path accessor and a comma-free aggregator. -/
def c9GoodSchema : List (String × SVal) :=
  [("x", .sstr "p"), ("loc", .sarr [.sstr "q.r"])]

def c9GoodHeap : Heap := ⟨[.obj [("p", .vNum 1), ("q", .vRef 1)], .obj [("r", .vNum 2)]]⟩

/-- Sources `[{n:'x'}, {n:'y'}]` for the array entry point. -/
def c8Heap : Heap :=
  ⟨[.arr [.vRef 1, .vRef 2] [], .obj [("n", .vStr "x")], .obj [("n", .vStr "y")]]⟩

def c8Schema : List (String × SVal) := [("name", .sstr "n")]

def c7Schema (k : String) (tag : String) : List (String × SVal) :=
  [("a", .sstr "x"), (k, .sother tag)]

/-- Run the resolver and read the result structure back as a pure tree. -/
def resolveTree (fuel : Nat) (schema : List (String × SVal)) (h : Heap) (source : JsVal) :
    Option JsTree :=
  match resolveSchemaF fuel schema h source with
  | .ok (h', v) => some (readBack 9 h' v)
  | .error _ => none

/-- A segment key as produced by `getKey`: the number flag matches the
round-trip test. -/
def wfKey (k : SKey) : Bool := k.isNum == (canonInt? k.str).isSome

/-! ## Theorems -/

/-! ### Heap and key lemmas -/

theorem Heap.size_upd (h : Heap) (a : Addr) (o : HObj) : (h.upd a o).size = h.size :=
  List.length_set ..

theorem Heap.get?_upd_ne (h : Heap) (a b : Addr) (o : HObj) (hne : a ≠ b) :
    (h.upd a o).get? b = h.get? b := by
  show (h.cells.set a o).get? b = h.cells.get? b
  rw [List.get?_eq_getElem?, List.get?_eq_getElem?]
  exact List.getElem?_set_ne hne

theorem Heap.get?_upd_self (h : Heap) (a : Addr) (o : HObj) (hlt : a < h.size) :
    (h.upd a o).get? a = some o := by
  show (h.cells.set a o).get? a = some o
  rw [List.get?_eq_getElem?]
  exact List.getElem?_set_self hlt

theorem Heap.alloc_size (h : Heap) (o : HObj) : (h.alloc o).1.size = h.size + 1 := by
  simp [Heap.alloc, Heap.size]

theorem Heap.alloc_addr (h : Heap) (o : HObj) : (h.alloc o).2 = h.size := rfl

theorem Heap.get?_alloc_lt (h : Heap) (o : HObj) (b : Addr) (hb : b < h.size) :
    (h.alloc o).1.get? b = h.get? b := by
  show (h.cells ++ [o]).get? b = h.cells.get? b
  rw [List.get?_eq_getElem?, List.get?_eq_getElem?]
  exact List.getElem?_append_left hb

theorem Heap.get?_alloc_self (h : Heap) (o : HObj) :
    (h.alloc o).1.get? h.size = some o := by
  show (h.cells ++ [o]).get? h.cells.length = some o
  rw [List.get?_eq_getElem?]
  exact List.getElem?_concat_length _ _

theorem Heap.lt_of_get?_some {h : Heap} {a : Addr} {o : HObj} (hg : h.get? a = some o) :
    a < h.size := by
  by_contra hge
  simp only [Heap.get?] at hg
  rw [List.get?_len_le (Nat.le_of_not_lt hge)] at hg
  exact Option.noConfusion hg

theorem Heap.get?_some_of_lt {h : Heap} {a : Addr} (ha : a < h.size) :
    ∃ o, h.get? a = some o := by
  cases hg : h.get? a with
  | some o => exact ⟨o, rfl⟩
  | none =>
    simp only [Heap.get?] at hg
    rw [List.get?_eq_none] at hg
    exact absurd ha (Nat.not_lt.mpr hg)

theorem HeapOK_of_bool {h : Heap} (hb : heapKeysOK h = true) : HeapOK h := by
  intro a o hg
  have hmem : o ∈ h.cells := List.get?_mem hg
  exact (List.all_eq_true.mp hb) o hmem

theorem HeapOK.upd {h : Heap} (hH : HeapOK h) {o : HObj} (ho : cellKeysOK o = true)
    (a : Addr) : HeapOK (h.upd a o) := by
  intro b o' hg
  by_cases hab : a = b
  · subst hab
    by_cases hlt : a < h.size
    · rw [Heap.get?_upd_self h a o hlt] at hg
      cases hg
      exact ho
    · have heq : h.upd a o = h := by
        show (⟨h.cells.set a o⟩ : Heap) = h
        rw [List.set_eq_of_length_le (Nat.le_of_not_lt hlt)]
      rw [heq] at hg
      exact hH a o' hg
  · rw [Heap.get?_upd_ne h a b o hab] at hg
    exact hH b o' hg

theorem HeapOK.alloc {h : Heap} (hH : HeapOK h) {o : HObj} (ho : cellKeysOK o = true) :
    HeapOK (h.alloc o).1 := by
  intro b o' hg
  by_cases hlt : b < h.size
  · rw [Heap.get?_alloc_lt h o b hlt] at hg
    exact hH b o' hg
  · by_cases hbe : b = h.size
    · subst hbe
      rw [Heap.get?_alloc_self] at hg
      cases hg
      exact ho
    · have hgt : h.size + 1 ≤ b :=
        Nat.succ_le_of_lt (Nat.lt_of_le_of_ne (Nat.le_of_not_lt hlt) (fun e => hbe e.symm))
      simp only [Heap.get?, Heap.alloc] at hg
      rw [List.get?_len_le (by simpa using hgt)] at hg
      exact Option.noConfusion hg

theorem noComma_ne {s t : String} (hs : noComma s = true) (ht : t.data.contains ',' = true) :
    s ≠ t := by
  intro he
  subst he
  rw [noComma, ht] at hs
  exact Bool.noConfusion hs

theorem comma_mem_of_contains {s : String} (hc : s.data.contains ',' = true) :
    ',' ∈ s.data :=
  List.elem_iff.mp hc

theorem canonNat?_comma_none {s : String} (hc : s.data.contains ',' = true) :
    canonNat? s = none := by
  have hmem : ',' ∈ s.data := comma_mem_of_contains hc
  have hall : s.data.all Char.isDigit = false := by
    by_contra hfalse
    have hT : s.data.all Char.isDigit = true := by
      cases hv : s.data.all Char.isDigit
      · exact absurd hv hfalse
      · rfl
    have := (List.all_eq_true.mp hT) ',' hmem
    exact absurd this (by decide)
  unfold canonNat?
  simp [hall]

theorem data_append (s t : String) : (s ++ t).data = s.data ++ t.data := rfl

theorem joinKeys_cons (k k₂ : SKey) (ks : List SKey) :
    joinKeys (k :: k₂ :: ks) = k.str ++ "," ++ joinKeys (k₂ :: ks) := rfl

theorem joinKeys_cons_comma (k : SKey) (k₂ : SKey) (ks : List SKey) :
    (joinKeys (k :: k₂ :: ks)).data.contains ',' = true := by
  have hdata : (joinKeys (k :: k₂ :: ks)).data =
      k.str.data ++ (("," : String) ++ joinKeys (k₂ :: ks)).data := by
    rw [joinKeys_cons, data_append, data_append, data_append, List.append_assoc]
  refine List.elem_iff.mpr ?_
  rw [hdata]
  refine List.mem_append_right _ ?_
  rw [data_append]
  exact List.mem_append_left _ (by decide)

theorem assocGet_none_of_keysOK {key : String} (hc : key.data.contains ',' = true) :
    ∀ fields : List (String × JsVal), fields.all (fun kv => noComma kv.1) = true →
      assocGet key fields = none := by
  intro fields hok
  induction fields with
  | nil => rfl
  | cons kv rest ih =>
    rw [List.all_cons, Bool.and_eq_true] at hok
    rw [assocGet, if_neg (noComma_ne hok.1 hc), ih hok.2]

theorem hasOwn_comma_false {h : Heap} {a : Addr} {o : HObj}
    (hget : h.get? a = some o) (hok : cellKeysOK o = true)
    {key : String} (hc : key.data.contains ',' = true) :
    hasOwnJs h (.vRef a) key = false := by
  have hlen : key ≠ "length" := Ne.symm (noComma_ne (by decide) hc)
  cases o with
  | obj fields =>
    simp only [hasOwnJs, hget]
    rw [assocGet_none_of_keysOK hc fields hok]
    rfl
  | arr elems props =>
    simp only [hasOwnJs, hget, canonNat?_comma_none hc]
    rw [assocGet_none_of_keysOK hc props hok]
    simp [hlen]

theorem assocGet_assocSet_self (k : String) (v : JsVal) :
    ∀ fields, assocGet k (assocSet k v fields) = some v := by
  intro fields
  induction fields with
  | nil => simp [assocSet, assocGet]
  | cons kv rest ih =>
    by_cases he : kv.1 = k
    · simp [assocSet, assocGet, he]
    · simp only [assocSet, he, if_false, assocGet, ih]

theorem assocSet_keysOK {k : String} (hk : noComma k = true) (v : JsVal) :
    ∀ fields, fields.all (fun kv => noComma kv.1) = true →
      (assocSet k v fields).all (fun kv => noComma kv.1) = true := by
  intro fields hok
  induction fields with
  | nil => simp [assocSet, hk]
  | cons kv rest ih =>
    rw [List.all_cons, Bool.and_eq_true] at hok
    by_cases he : kv.1 = k
    · simp [assocSet, he, hk, hok.2]
    · simp [assocSet, he, hok.1, ih hok.2]

theorem jsWrite_size (h : Heap) (t : JsVal) (k : String) (v : JsVal) :
    (jsWrite h t k v).size = h.size := by
  cases t with
  | vRef a =>
    cases hg : h.get? a with
    | none => simp [jsWrite, hg]
    | some o =>
      cases o with
      | obj fields => simp [jsWrite, hg, Heap.size_upd]
      | arr elems props =>
        cases hn : canonNat? k with
        | some i =>
          by_cases hi : i < elems.length <;>
            simp [jsWrite, hg, hn, hi, Heap.size_upd]
        | none => simp [jsWrite, hg, hn, Heap.size_upd]
  | vNull => rfl
  | vUndef => rfl
  | vNum n => rfl
  | vStr s => rfl
  | vBool b => rfl

theorem jsWrite_get?_ne (h : Heap) (a : Addr) (k : String) (v : JsVal) (b : Addr)
    (hba : b ≠ a) : (jsWrite h (.vRef a) k v).get? b = h.get? b := by
  have hne : ∀ o, (h.upd a o).get? b = h.get? b :=
    fun o => Heap.get?_upd_ne h a b o (fun e => hba e.symm)
  cases hg : h.get? a with
  | none => simp [jsWrite, hg]
  | some o =>
    cases o with
    | obj fields => simp [jsWrite, hg, hne]
    | arr elems props =>
      cases hn : canonNat? k with
      | some i =>
        by_cases hi : i < elems.length <;> simp [jsWrite, hg, hn, hi, hne]
      | none => simp [jsWrite, hg, hn, hne]

theorem jsWrite_HeapOK {h : Heap} (hH : HeapOK h) {k : String} (hk : noComma k = true)
    (t : JsVal) (v : JsVal) : HeapOK (jsWrite h t k v) := by
  cases t with
  | vRef a =>
    cases hg : h.get? a with
    | none => simp only [jsWrite, hg]; exact hH
    | some o =>
      cases o with
      | obj fields =>
        simp only [jsWrite, hg]
        exact hH.upd (show cellKeysOK (.obj (assocSet k v fields)) = true from
          assocSet_keysOK hk v fields (hH a _ hg)) a
      | arr elems props =>
        simp only [jsWrite, hg]
        cases hn : canonNat? k with
        | some i =>
          by_cases hi : i < elems.length
          · simp only [hn, if_pos hi]
            exact hH.upd (show cellKeysOK (.arr (elems.set i v) props) = true from
              hH a (HObj.arr elems props) hg) a
          · simp only [hn, if_neg hi]
            exact hH.upd (show cellKeysOK
              (.arr (elems ++ List.replicate (i - elems.length) .vUndef ++ [v]) props) = true from
              hH a (HObj.arr elems props) hg) a
        | none =>
          simp only [hn]
          exact hH.upd (show cellKeysOK (.arr elems (assocSet k v props)) = true from
            assocSet_keysOK hk v props (hH a _ hg)) a
  | vNull => exact hH
  | vUndef => exact hH
  | vNum n => exact hH
  | vStr s => exact hH
  | vBool b => exact hH

/-- Reading back the key just written (`target[k] = v; target[k] == v`);
for an array cell the key must be a `getKey`-numeric key (the only kind
the library ever writes into an array cell), ruling out `length`. -/
theorem jsIndex_jsWrite_self {h : Heap} {a : Addr} {o : HObj} (hg : h.get? a = some o)
    {k : String} (v : JsVal)
    (harr : ∀ e p, o = HObj.arr e p → (canonInt? k).isSome = true) :
    jsIndex (jsWrite h (.vRef a) k v) (.vRef a) k = v := by
  have hlt := Heap.lt_of_get?_some hg
  cases o with
  | obj fields =>
    simp only [jsWrite, hg, jsIndex]
    rw [Heap.get?_upd_self _ _ _ hlt]
    simp [assocGet_assocSet_self]
  | arr elems props =>
    cases hn : canonNat? k with
    | some i =>
      by_cases hi : i < elems.length
      · simp only [jsWrite, hg, hn, if_pos hi, jsIndex]
        rw [Heap.get?_upd_self _ _ _ hlt]
        simp only [hn, List.getD]
        rw [List.get?_eq_getElem?]
        simp [List.getElem?_set_self (by simpa using hi)]
      · simp only [jsWrite, hg, hn, if_neg hi, jsIndex]
        rw [Heap.get?_upd_self _ _ _ hlt]
        simp only [hn, List.getD]
        set A := elems ++ List.replicate (i - elems.length) JsVal.vUndef with hA
        have hilen : A.length = i := by
          rw [hA, List.length_append, List.length_replicate]
          omega
        rw [← hilen]
        rw [List.get?_eq_getElem?, List.getElem?_concat_length]
        rfl
    | none =>
      have hlen : k ≠ "length" := by
        intro he
        rw [he] at harr
        have := harr elems props rfl
        exact absurd this (by decide)
      simp only [jsWrite, hg, hn, jsIndex]
      rw [Heap.get?_upd_self _ _ _ hlt]
      simp only [hn]
      rw [if_neg hlen]
      simp [assocGet_assocSet_self]

/-- `hasOwn(v, k) == false` implies `v[k] === undefined` for a reference. -/
theorem jsIndex_eq_undef_of_not_hasOwn (h : Heap) (a : Addr) (k : String)
    (hno : hasOwnJs h (.vRef a) k = false) : jsIndex h (.vRef a) k = .vUndef := by
  cases hg : h.get? a with
  | none => simp [jsIndex, hg]
  | some o =>
    cases o with
    | obj fields =>
      simp only [hasOwnJs, hg] at hno
      simp only [jsIndex, hg]
      cases ha : assocGet k fields with
      | none => rfl
      | some w => rw [ha] at hno; exact Bool.noConfusion hno
    | arr elems props =>
      simp only [hasOwnJs, hg] at hno
      simp only [jsIndex, hg]
      cases hcn : canonNat? k with
      | some i =>
        rw [hcn] at hno
        simp only [List.getD]
        rw [List.get?_len_le (by simpa using hno)]
        rfl
      | none =>
        rw [hcn] at hno
        rw [Bool.or_eq_false_iff] at hno
        rw [if_neg (by simpa using hno.1)]
        cases ha : assocGet k props with
        | none => rfl
        | some w => rw [ha] at hno; exact absurd hno.2 (by simp)

/-- `jsIndex` only looks at the cell of its reference. -/
theorem jsIndex_ext {h h' : Heap} {a : Addr} (he : h'.get? a = h.get? a) (k : String) :
    jsIndex h' (.vRef a) k = jsIndex h (.vRef a) k := by
  simp only [jsIndex, he]

/-- A freshly created chain cell (`[]` when the next key is numeric, `{}`
otherwise) reads `undefined` at its well-formed key. -/
theorem jsIndex_fresh {h : Heap} {f : Addr} {k : SKey} (hwf : wfKey k = true)
    (hg : h.get? f = some (if k.isNum then HObj.arr [] [] else HObj.obj [])) :
    jsIndex h (.vRef f) k.str = .vUndef := by
  cases hn : k.isNum with
  | true =>
    rw [hn] at hg
    simp only [if_pos rfl] at hg
    simp only [jsIndex, hg]
    cases hcn : canonNat? k.str with
    | some i => simp [List.getD]
    | none =>
      have hne : k.str ≠ "length" := by
        intro he
        rw [wfKey, hn, he] at hwf
        exact absurd hwf (by decide)
      simp [hne, assocGet]
  | false =>
    rw [hn] at hg
    simp only [Bool.false_eq_true, if_false] at hg
    simp [jsIndex, hg, assocGet]

theorem getSegs_single (h : Heap) (a : Addr) (s : String) :
    getSegs h [s] (.vRef a) = .ok (jsIndex h (.vRef a) s) := rfl

theorem jsWrite_objAt {h : Heap} {a : Addr} {fields : List (String × JsVal)}
    (hg : h.get? a = some (.obj fields)) (k : String) (v : JsVal) :
    (jsWrite h (.vRef a) k v).get? a = some (.obj (assocSet k v fields)) := by
  simp only [jsWrite, hg]
  exact Heap.get?_upd_self _ _ _ (Heap.lt_of_get?_some hg)

/-- The behaviour of the array-path branch of `set` on a valid reference
target, for comma-free well-formed keys (the comma-joined `hasOwn` probe
then never sees an existing own key, except for single-segment paths
where the probe degenerates to the plain key): the call succeeds, writes
only the target cell and fresh cells, keeps the key discipline, and
  * for a multi-segment path the written value is reachable at the path
    afterwards (the chain is rebuilt unconditionally);
  * for a single-segment path the value is written iff the key read
    `undefined`, otherwise the heap is untouched and the existing value
    is returned. -/
theorem setGo_spec :
    ∀ (ks : List SKey) (k : SKey) (h : Heap) (a : Addr) (v : JsVal),
    HeapOK h → a < h.size →
    (noComma k.str = true ∧ wfKey k = true) →
    (∀ k' ∈ ks, noComma k'.str = true ∧ wfKey k' = true) →
    (∀ e p, h.get? a = some (HObj.arr e p) → (canonInt? k.str).isSome = true) →
    ∃ h' ret, setGo h (.vRef a) (k :: ks) v = .ok (h', ret) ∧
      h.size ≤ h'.size ∧
      (∀ b, b ≠ a → b < h.size → h'.get? b = h.get? b) ∧
      HeapOK h' ∧
      (ks ≠ [] → getSegs h' ((k :: ks).map SKey.str) (.vRef a) = .ok v) ∧
      (ks = [] →
        (jsIndex h (.vRef a) k.str = .vUndef → getSegs h' [k.str] (.vRef a) = .ok v) ∧
        (jsIndex h (.vRef a) k.str ≠ .vUndef →
          h' = h ∧ ret = jsIndex h (.vRef a) k.str)) ∧
      ((∃ fields, h.get? a = some (HObj.obj fields)) →
        ∃ fields', h'.get? a = some (HObj.obj fields')) := by
  intro ks
  induction ks with
  | nil =>
    intro k h a v hH hlt hk _ harrk
    obtain ⟨o, hg⟩ := Heap.get?_some_of_lt hlt
    have hcv : (if hasOwnJs h (.vRef a) (joinKeys [k]) = true
        then jsIndex h (.vRef a) k.str else .vUndef) = jsIndex h (.vRef a) k.str := by
      by_cases hc : hasOwnJs h (.vRef a) (joinKeys [k]) = true
      · rw [if_pos hc]
      · rw [if_neg hc]
        have : hasOwnJs h (.vRef a) k.str = false := by
          have : hasOwnJs h (.vRef a) (joinKeys [k]) = false := by
            cases hval : hasOwnJs h (.vRef a) (joinKeys [k])
            · rfl
            · exact absurd hval hc
          simpa [joinKeys] using this
        rw [jsIndex_eq_undef_of_not_hasOwn h a k.str this]
    have hbody : setGo h (.vRef a) [k] v =
        (if jsIndex h (.vRef a) k.str = .vUndef
         then .ok (jsWrite h (.vRef a) k.str v, .vUndef)
         else .ok (h, jsIndex h (.vRef a) k.str)) := by
      simp only [setGo, isNilJs, isNullJs, isUndefJs, Bool.or_self, Bool.false_eq_true,
        if_false, List.isEmpty_nil, if_true]
      rw [hcv]
    by_cases hund : jsIndex h (.vRef a) k.str = .vUndef
    · refine ⟨jsWrite h (.vRef a) k.str v, .vUndef, ?_, ?_, ?_, ?_, ?_, ?_, ?_⟩
      · rw [hbody, if_pos hund]
      · exact Nat.le_of_eq (jsWrite_size h _ _ _).symm
      · intro b hba _
        exact jsWrite_get?_ne h a k.str v b hba
      · exact jsWrite_HeapOK hH hk.1 _ v
      · intro hne
        exact absurd rfl hne
      · intro _
        refine ⟨fun _ => ?_, fun hne => absurd hund hne⟩
        rw [getSegs_single]
        rw [jsIndex_jsWrite_self hg v (fun e p hep => harrk e p (by rw [hg, hep]))]
      · rintro ⟨fields, hga⟩
        exact ⟨assocSet k.str v fields, jsWrite_objAt hga k.str v⟩
    · refine ⟨h, jsIndex h (.vRef a) k.str, ?_, Nat.le_refl _, fun b _ _ => rfl, hH, ?_, ?_, ?_⟩
      · rw [hbody, if_neg hund]
      · intro hne
        exact absurd rfl hne
      · intro _
        exact ⟨fun he => absurd he hund, fun _ => ⟨rfl, rfl⟩⟩
      · exact fun hx => hx
  | cons k₂ ks' ih =>
    intro k h a v hH hlt hk hks harrk
    obtain ⟨o, hg⟩ := Heap.get?_some_of_lt hlt
    have hcond : hasOwnJs h (.vRef a) (joinKeys (k :: k₂ :: ks')) = false :=
      hasOwn_comma_false hg (hH a o hg) (joinKeys_cons_comma k k₂ ks')
    -- the fresh chain cell
    have hcell : ((h.alloc (if k₂.isNum then HObj.arr [] [] else HObj.obj [])).1).get? h.size =
        some (if k₂.isNum then HObj.arr [] [] else HObj.obj []) :=
      Heap.get?_alloc_self h _
    set cell := (if k₂.isNum then HObj.arr [] [] else HObj.obj []) with hcelldef
    set h₁ := (h.alloc cell).1 with hh₁
    have hsize₁ : h₁.size = h.size + 1 := Heap.alloc_size h cell
    have hg₁ : h₁.get? a = h.get? a := Heap.get?_alloc_lt h cell a hlt
    set h₂ := jsWrite h₁ (.vRef a) k.str (.vRef h.size) with hh₂
    have hsize₂ : h₂.size = h₁.size := jsWrite_size h₁ _ _ _
    have hH₁ : HeapOK h₁ := by
      refine hH.alloc ?_
      rw [hcelldef]
      cases hc : k₂.isNum <;> rfl
    have hH₂ : HeapOK h₂ := jsWrite_HeapOK hH₁ hk.1 _ _
    have hga₁ : h₁.get? a = some o := by rw [hg₁]; exact hg
    have hread : jsIndex h₂ (.vRef a) k.str = .vRef h.size := by
      rw [hh₂]
      exact jsIndex_jsWrite_self hga₁ (.vRef h.size)
        (fun e p hep => harrk e p (by rw [hg, hep]))
    have hg₂f : h₂.get? h.size = some cell := by
      rw [hh₂, jsWrite_get?_ne h₁ a k.str (.vRef h.size) h.size
        (fun e => (Nat.lt_irrefl _ (e ▸ hlt)))]
      exact hcell
    have hfs : h.size < h₂.size := by
      rw [hsize₂, hsize₁]
      exact Nat.lt_succ_self _
    obtain ⟨h', ret, heq, hsz, hframe, hHok, hmulti, hsingle, _⟩ :=
      ih k₂ h₂ h.size v hH₂ hfs (hks k₂ (List.mem_cons_self _ _))
        (fun k' hm => hks k' (List.mem_cons_of_mem _ hm))
        (by
          intro e p hep
          rw [hg₂f] at hep
          rw [hcelldef] at hep
          cases hn : k₂.isNum with
          | true =>
            have hwf := (hks k₂ (List.mem_cons_self _ _)).2
            rw [wfKey, hn] at hwf
            exact (beq_iff_eq.mp hwf).symm
          | false =>
            rw [hn] at hep
            simp at hep)
    have hfr_a : h'.get? a = h₂.get? a := by
      refine hframe a (fun e => (Nat.lt_irrefl _ (e ▸ hlt))) ?_
      rw [hsize₂, hsize₁]
      exact Nat.lt_succ_of_lt hlt
    refine ⟨h', ret, ?_, Nat.le_trans (Nat.le_of_lt hfs) hsz, ?_, hHok, ?_, ?_, ?_⟩
    · have hstep : setGo h (.vRef a) (k :: k₂ :: ks') v =
          setGo h₂ (jsIndex h₂ (.vRef a) k.str) (k₂ :: ks') v := by
        conv_lhs => rw [setGo]
        rw [hcond]
        rfl
      rw [hstep, hread]
      exact heq
    · intro b hba hb
      have h1 : h'.get? b = h₂.get? b :=
        hframe b (fun e => (Nat.lt_irrefl _ (e ▸ hb)))
          (by rw [hsize₂, hsize₁]; exact Nat.lt_succ_of_lt hb)
      have h2 : h₂.get? b = h₁.get? b := jsWrite_get?_ne h₁ a k.str (.vRef h.size) b hba
      have h3 : h₁.get? b = h.get? b := Heap.get?_alloc_lt h cell b hb
      rw [h1, h2, h3]
    · intro _
      show getSegs h' (k.str :: (k₂ :: ks').map SKey.str) (.vRef a) = .ok v
      have hstep : getSegs h' (k.str :: (k₂ :: ks').map SKey.str) (.vRef a) =
          getSegs h' ((k₂ :: ks').map SKey.str) (jsIndex h' (.vRef a) k.str) := rfl
      rw [hstep, jsIndex_ext hfr_a k.str, hread]
      cases ks' with
      | nil =>
        have hfund : jsIndex h₂ (.vRef h.size) k₂.str = .vUndef :=
          jsIndex_fresh (hks k₂ (List.mem_cons_self _ _)).2 (by rw [hg₂f, hcelldef])
        exact (hsingle rfl).1 hfund
      | cons k₃ ks'' => exact hmulti (by simp)
    · intro hcontra
      exact absurd hcontra (by simp)
    · rintro ⟨fields, hga⟩
      have hga' : h₁.get? a = some (.obj fields) := by rw [hg₁]; exact hga
      refine ⟨assocSet k.str (.vRef h.size) fields, ?_⟩
      rw [hfr_a, hh₂]
      exact jsWrite_objAt hga' k.str (.vRef h.size)

/-- Claim C1 (counterexample): on the claim's schema and source the
resolver produces `age` as the one-element *array*
`[{min:{min:12,actual:10}}]` (the repository's own test expects exactly
this array), not the bare merged mapping `{min:{min:12,actual:10}}` the
claim asserts, so the claimed result object is not the produced one. -/
theorem c1_counterexample :
    resolveTree 2 c1Schema c1Heap (.vRef 0) = some c1ActualTree ∧
      c1ActualTree ≠ c1ClaimedTree :=
  ⟨rfl, by simp [c1ActualTree, c1ClaimedTree]⟩

/-- Claim C1 (amended): the end-to-end run yields
`{name:'Miro', age:[{min:{min:12,actual:10}}], city:'Astoria'}` — the
`age` field is the array of the selector's validator results, holding the
single `min` error mapping. -/
theorem c1_amended : resolveTree 2 c1Schema c1Heap (.vRef 0) = some c1ActualTree := rfl

/-- Claim C2 (counterexample): a selector whose validator *passes*
(`min(12)` against `Age = 20`) still replaces the field's value: the
result is `{age: [null]}` — the array of validator results — rather than
the fetched value `20` the claim promises when no validator reports an
error. -/
theorem c2_counterexample :
    resolveTree 2 c2Schema c2Heap (.vRef 0) = some (.tObj [("age", .tArr [.tNull])]) ∧
      JsTree.tObj [("age", .tArr [.tNull])] ≠ .tObj [("age", .tNum 20)] :=
  ⟨rfl, by simp⟩

/-- Claim C3 (code bug): `isPresent` is the tautology
`!isNull(o) || !isUndefined(o)`, so `Validators.compose` does not remove
a `null` entry; the composed validator then invokes `null` as a function
and throws instead of returning `min`'s error map. -/
theorem c3_code_eval :
    isPresentE VEntry.vnull = true ∧
      (compose [VEntry.vfn (minValidatorFn 12), VEntry.vnull]).map
          (fun g => g ⟨[]⟩ (.vNum 10)) =
        some (.error "TypeError: validator is not a function") :=
  ⟨rfl, rfl⟩

/-- Claim C4 (counterexample): on the empty target, `set` at `'a.b'` of
`1` followed by `set` at the same path of `2` yields `2` at `'a.b'` — the
second `set` is *not* a no-op (because `hasOwn(target, path)` tests the
comma-joined key `'a,b'`, misses, and the intermediate node is rebuilt);
and on `{a:{x:1}}`, `set` at `'a.b'` destroys the existing branch node
`a` (the value at `'a.x'` becomes undefined). -/
theorem c4_counterexample :
    (match set c4Heap (.vRef 0) (.ps "a.b") (.vNum 1) with
     | .ok (h₁, _) =>
       match set h₁ (.vRef 0) (.ps "a.b") (.vNum 2) with
       | .ok (h₂, _) => some (get h₂ (.vRef 0) "a.b")
       | .error _ => none
     | .error _ => none) = some (.vNum 2) ∧
    JsVal.vNum 2 ≠ .vNum 1 ∧
    get c4HeapB (.vRef 0) "a.x" = .vNum 1 ∧
    (match set c4HeapB (.vRef 0) (.ps "a.b") (.vNum 7) with
     | .ok (h₁, _) => some (get h₁ (.vRef 0) "a.x")
     | .error _ => none) = some .vUndef :=
  ⟨rfl, by decide, rfl, rfl⟩

/-- Claim C5 (counterexample): when only the *final* segment is absent
the walk completes without throwing, so `get({a:1}, 'b')` returns
`undefined` — a not-found sentinel — and not the original target. -/
theorem c5_counterexample :
    get c5Heap (.vRef 0) "b" = .vUndef ∧ JsVal.vUndef ≠ .vRef 0 :=
  ⟨rfl, by decide⟩

/-- Claim C6: `isEmpty(0) == false`, `isEmpty(null) == isEmpty(undefined)
== true`, `isEmpty({}) == true`, `isEmpty([]) == true`,
`isEmpty('x') == false`; and because `0` is not empty, `min(12)` still
runs against `0` and reports `{min:{min:12, actual:0}}`. -/
theorem c6_isEmpty :
    isEmptyJs c6Heap (.vNum 0) = false ∧
    isEmptyJs c6Heap .vNull = true ∧
    isEmptyJs c6Heap .vUndef = true ∧
    isEmptyJs c6Heap (.vRef 0) = true ∧
    isEmptyJs c6Heap (.vRef 1) = true ∧
    isEmptyJs c6Heap (.vStr "x") = false ∧
    (match minValidatorFn 12 c6Heap [.vNum 0] with
     | .ok (h, v) => some (readBack 9 h v)
     | .error _ => none) =
      some (.tObj [("min", .tObj [("min", .tNum 12), ("actual", .tNum 0)])]) :=
  ⟨rfl, rfl, rfl, rfl, rfl, rfl, rfl⟩

/-- Claim C9 (counterexample): the aggregator
`['a', 'a,b,x', 'a.b.x']` run against `{a:{b:{q:1}}}` mutates the source:
the path `'a,b,x'` plants the comma-joined own key on the accumulator, so
`set(agg, 'a.b.x', …)` finds `hasOwn(agg, ['a','b','x'])` true, recurses
into the *aliased* `source.a`, and overwrites `source.a.b` — the source
object reachable from the input heap changes. -/
theorem c9_counterexample :
    readBack 9 c9Heap (.vRef 0) =
      .tObj [("a", .tObj [("b", .tObj [("q", .tNum 1)])])] ∧
    (match hookup 2 c9Schema c9Heap (.vRef 0) with
     | .ok (h, _) => some (readBack 9 h (.vRef 0), decide (h.get? 1 = c9Heap.get? 1))
     | .error _ => none) =
      some (.tObj [("a", .tObj [("b", .tObj [("x", .tUndef)])])], false) :=
  ⟨rfl, rfl⟩

/-- Claim C10: `isPresent(o) = !isNull(o) || !isUndefined(o)` returns
`true` for every value — including `null` and `undefined` — so filtering
a list with it retains every entry. -/
theorem c10_isPresent :
    (∀ v : JsVal, isPresentJs v = true) ∧
    (∀ e : VEntry, isPresentE e = true) ∧
    (∀ l : List VEntry, l.filter isPresentE = l) := by
  refine ⟨fun v => ?_, fun e => ?_, fun l => ?_⟩
  · cases v <;> rfl
  · cases e <;> rfl
  · induction l with
    | nil => rfl
    | cons e rest ih => cases e <;> simp [List.filter, isPresentE, isNullE, isUndefE, ih]

theorem getSegs_append (h : Heap) (l₁ l₂ : List String) (v : JsVal) :
    getSegs h (l₁ ++ l₂) v =
      match getSegs h l₁ v with
      | .ok u => getSegs h l₂ u
      | .error e => .error e := by
  induction l₁ generalizing v with
  | nil => rfl
  | cons s rest ih =>
    cases v <;> simp [getSegs, ih]

/-- Claim C5 (amended): `get` returns the original target exactly in the
throwing case — some segment walk reaches `null`/`undefined` while at
least one segment remains, so the next index access throws and the
`catch` returns `target`; when the walk completes (in particular when
only the final segment is absent), `get` returns the walk's final value
instead. -/
theorem c5_amended :
    (∀ (h : Heap) (t : JsVal) (key : String) (pre : List String) (s : String)
        (rest : List String) (u : JsVal),
      splitDot key = pre ++ s :: rest → getSegs h pre t = .ok u → isNilJs u = true →
      get h t key = t) ∧
    (∀ (h : Heap) (t : JsVal) (key : String) (v : JsVal),
      getSegs h (splitDot key) t = .ok v → get h t key = v) := by
  constructor
  · intro h t key pre s rest u hsplit hpre hnil
    unfold get
    rw [hsplit, getSegs_append, hpre]
    cases u <;> simp_all [isNilJs, isNullJs, isUndefJs, getSegs]
  · intro h t key v hok
    unfold get
    rw [hok]

theorem c5_amended_witness :
    get c5HeapB (.vRef 0) "a.b" = .vRef 0 ∧ get c5Heap (.vRef 0) "b" = .vUndef := by
  constructor
  · exact c5_amended.1 c5HeapB (.vRef 0) "a.b" ["a"] "b" [] .vNull rfl rfl rfl
  · exact c5_amended.2 c5Heap (.vRef 0) "b" .vUndef rfl

theorem goEntries_append (recur : List (String × SVal) → Heap → JsVal → EX (Heap × JsVal))
    (l₁ l₂ : List (String × SVal)) (h : Heap) (source : JsVal) (acc : Addr) :
    goEntries recur (l₁ ++ l₂) h source acc =
      match goEntries recur l₁ h source acc with
      | .ok h' => goEntries recur l₂ h' source acc
      | .error e => .error e := by
  induction l₁ generalizing h with
  | nil => rfl
  | cons kv rest ih =>
    simp only [List.cons_append, goEntries]
    cases entryStep recur kv.1 kv.2 h source acc <;> simp [ih]

/-- Claim C7: a schema key whose accessor value has an unsupported
runtime shape — `null`, `undefined`, or any other value that is not a
string, a callable, a selector object, an array or a plain mapping —
makes resolution fail with the error
`The value type specified for <key> is not supported.` — provided the
entries before it resolve, the whole call returns that error (an
`Except.error`), so the failure is not swallowed and no partial result
object is returned. -/
theorem c7_unsupported_accessor (fuel : Nat) (pre rest : List (String × SVal))
    (k : String) (v : SVal) (h h₁ : Heap) (source : JsVal)
    (hbad : v = .svnull ∨ v = .svundef ∨ ∃ tag, v = .sother tag)
    (hpre : goEntries (resolveSchemaF fuel) pre (h.alloc (.obj [])).1 source
      (h.alloc (.obj [])).2 = .ok h₁) :
    resolveSchemaF (fuel + 1) (pre ++ (k, v) :: rest) h source =
      .error ("The value type specified for " ++ k ++ " is not supported.") := by
  simp only [resolveSchemaF, resolveBody, goEntries_append, hpre]
  rcases hbad with rfl | rfl | ⟨tag, rfl⟩ <;> rfl

theorem c7_witness :
    (resolveSchemaF 2 (c7Schema "badKey" "number") c1Heap (.vRef 0) =
      .error ("The value type specified for " ++ "badKey" ++ " is not supported.")) ∧
    (resolveSchemaF 2 [("a", .sstr "x"), ("k2", .svnull)] c1Heap (.vRef 0) =
      .error ("The value type specified for " ++ "k2" ++ " is not supported.")) ∧
    (resolveSchemaF 2 [("a", .sstr "x"), ("k3", .svundef)] c1Heap (.vRef 0) =
      .error ("The value type specified for " ++ "k3" ++ " is not supported.")) :=
  ⟨c7_unsupported_accessor 1 [("a", .sstr "x")] [] "badKey" (.sother "number") c1Heap _
      (.vRef 0) (.inr (.inr ⟨"number", rfl⟩)) rfl,
   c7_unsupported_accessor 1 [("a", .sstr "x")] [] "k2" .svnull c1Heap _
      (.vRef 0) (.inl rfl) rfl,
   c7_unsupported_accessor 1 [("a", .sstr "x")] [] "k3" .svundef c1Heap _
      (.vRef 0) (.inr (.inl rfl)) rfl⟩

theorem mapResolve_ok_iff (fuel : Nat) (schema : List (String × SVal))
    (elems : List JsVal) (h h' : Heap) (rs : List JsVal) :
    mapResolve fuel schema elems h = .ok (h', rs) ↔
      ResolvesEach fuel schema h elems h' rs := by
  induction elems generalizing h rs with
  | nil =>
    constructor
    · intro he
      simp only [mapResolve] at he
      cases he
      exact ResolvesEach.nil _
    · intro he
      cases he
      rfl
  | cons s rest ih =>
    constructor
    · intro he
      simp only [mapResolve] at he
      split at he
      · exact Except.noConfusion he
      · rename_i h₁ r hr
        split at he
        · exact Except.noConfusion he
        · rename_i h₂ rs' hm
          cases he
          exact ResolvesEach.cons hr ((ih _ _).mp hm)
    · intro he
      cases he with
      | cons hs hrest =>
        simp only [mapResolve, hs]
        rw [(ih _ _).mpr hrest]

/-- Claim C8: for an array source, `hookup` succeeds exactly by resolving
every element independently with `resolveSchema`, in order, and returns a
fresh array holding those results in the same order; for every non-array
source it returns the single `resolveSchema` result. -/
theorem c8_hookup_map :
    (∀ (fuel : Nat) (schema : List (String × SVal)) (h : Heap) (a : Addr)
        (elems : List JsVal) (props : List (String × JsVal)),
      h.get? a = some (.arr elems props) →
      ∀ hf v, hookup fuel schema h (.vRef a) = .ok (hf, v) ↔
        ∃ h₁ rs, ResolvesEach fuel schema h elems h₁ rs ∧
          hf = (h₁.alloc (.arr rs [])).1 ∧ v = .vRef (h₁.alloc (.arr rs [])).2) ∧
    (∀ (fuel : Nat) (schema : List (String × SVal)) (h : Heap) (source : JsVal),
      arrElems? h source = none →
      hookup fuel schema h source = resolveSchemaF fuel schema h source) := by
  constructor
  · intro fuel schema h a elems props hget hf v
    have harr : arrElems? h (.vRef a) = some elems := by
      simp [arrElems?, hget]
    constructor
    · intro he
      simp only [hookup, harr] at he
      cases hm : mapResolve fuel schema elems h with
      | error m => rw [hm] at he; cases he
      | ok p =>
        obtain ⟨h₁, rs⟩ := p
        rw [hm] at he
        cases he
        exact ⟨h₁, rs, (mapResolve_ok_iff fuel schema elems h h₁ rs).mp hm, rfl, rfl⟩
    · rintro ⟨h₁, rs, hre, rfl, rfl⟩
      simp only [hookup, harr]
      rw [(mapResolve_ok_iff fuel schema elems h h₁ rs).mpr hre]
  · intro fuel schema h source hna
    simp [hookup, hna]

theorem c8_hookup_map_witness :
    (∃ h₁ rs, ResolvesEach 1 c8Schema c8Heap [.vRef 1, .vRef 2] h₁ rs ∧
      (⟨[.arr [.vRef 1, .vRef 2] [], .obj [("n", .vStr "x")], .obj [("n", .vStr "y")],
         .obj [("name", .vStr "x")], .obj [("name", .vStr "y")],
         .arr [.vRef 3, .vRef 4] []]⟩ : Heap) = (h₁.alloc (.arr rs [])).1 ∧
      JsVal.vRef 5 = .vRef (h₁.alloc (.arr rs [])).2) ∧
    hookup 1 c8Schema c8Heap (.vNum 7) = resolveSchemaF 1 c8Schema c8Heap (.vNum 7) := by
  constructor
  · exact (c8_hookup_map.1 1 c8Schema c8Heap 0 [.vRef 1, .vRef 2] [] rfl _ _).mp rfl
  · exact c8_hookup_map.2 1 c8Schema c8Heap (.vNum 7) rfl

/-- Claim C2 (amended): for a selector `{path, transform?, validators?}`
resolved by `resolveSchema` at any schema position, the value is fetched
with `get` at the selector's path and the transform, if present, is
applied to it; whenever a `validators` key is present — in single or
array form — and at least one non-`null` entry remains, the field's
value becomes the freshly-allocated *array* of the individual
validators' results, pass or fail alike, and the call returns `.ok` (no
exception), with the result array substituted in place of the field's
value; only when no `validators` key is present does the field keep the
(possibly transformed) fetched value. -/
theorem c2_amended :
    (∀ (fuel : Nat) (pre rest : List (String × SVal)) (k : String)
        (fields : List (String × SVal)) (h h₁ : Heap) (source : JsVal),
      isFieldSelectorS (.sobj fields) = true →
      goEntries (resolveSchemaF fuel) pre (h.alloc (.obj [])).1 source
        (h.alloc (.obj [])).2 = .ok h₁ →
      resolveSchemaF (fuel + 1) (pre ++ (k, .sobj fields) :: rest) h source =
        match selectorRun h₁ source fields with
        | .error msg => .error msg
        | .ok (h₂, value) =>
          match goEntries (resolveSchemaF fuel) rest
              (jsWrite h₂ (.vRef (h.alloc (.obj [])).2) k value) source
              (h.alloc (.obj [])).2 with
          | .error msg => .error msg
          | .ok h₃ => .ok (h₃, .vRef (h.alloc (.obj [])).2)) ∧
    (∀ (h : Heap) (source : JsVal) (fields : List (String × SVal)) (p : String),
      assocGetS "path" fields = some (.sstr p) →
      assocGetS "transform" fields = none →
      assocGetS "validators" fields = none →
      selectorRun h source fields = .ok (h, get h source p)) ∧
    (∀ (h : Heap) (source : JsVal) (fields : List (String × SVal)) (p : String)
        (f : JsFun),
      assocGetS "path" fields = some (.sstr p) →
      assocGetS "transform" fields = some (.sfun f) →
      assocGetS "validators" fields = none →
      selectorRun h source fields = f h [get h source p]) ∧
    (∀ (h h₂ : Heap) (source : JsVal) (fields : List (String × SVal)) (p : String)
        (vs : SVal) (fs : List VEntry) (results : List JsVal),
      assocGetS "path" fields = some (.sstr p) →
      assocGetS "transform" fields = none →
      assocGetS "validators" fields = some vs →
      (selValidatorEntries vs).filter (fun v => !isNullE v) = fs →
      fs ≠ [] →
      runEntries fs h (get h source p) = .ok (h₂, results) →
      selectorRun h source fields =
        .ok ((h₂.alloc (.arr results [])).1, .vRef (h₂.alloc (.arr results [])).2)) ∧
    (∀ (h h₁ h₂ : Heap) (source tv : JsVal) (fields : List (String × SVal))
        (p : String) (f : JsFun) (vs : SVal) (fs : List VEntry)
        (results : List JsVal),
      assocGetS "path" fields = some (.sstr p) →
      assocGetS "transform" fields = some (.sfun f) →
      f h [get h source p] = .ok (h₁, tv) →
      assocGetS "validators" fields = some vs →
      (selValidatorEntries vs).filter (fun v => !isNullE v) = fs →
      fs ≠ [] →
      runEntries fs h₁ tv = .ok (h₂, results) →
      selectorRun h source fields =
        .ok ((h₂.alloc (.arr results [])).1, .vRef (h₂.alloc (.arr results [])).2)) := by
  refine ⟨?_, ?_, ?_, ?_, ?_⟩
  · intro fuel pre rest k fields h h₁ source hsel hpre
    have hat : getActionType k (.sobj fields) = .ok .FieldSelector := by
      simp [getActionType, hsel]
    simp only [resolveSchemaF, resolveBody, goEntries_append, hpre, goEntries,
      entryStep, hat]
    cases selectorRun h₁ source fields with
    | error msg => rfl
    | ok q =>
      obtain ⟨h₂, value⟩ := q
      cases goEntries (resolveSchemaF fuel) rest
          (jsWrite h₂ (.vRef (h.alloc (.obj [])).2) k value) source
          (h.alloc (.obj [])).2 with
      | error msg => rfl
      | ok h₃ => rfl
  · intro h source fields p hp ht hv
    simp only [selectorRun, hp, ht, hv]
  · intro h source fields p f hp ht hv
    simp only [selectorRun, hp, ht, hv]
    cases f h [get h source p] with
    | error msg => rfl
    | ok q =>
      obtain ⟨h₁, iv⟩ := q
      rfl
  · intro h h₂ source fields p vs fs results hp ht hv hfs hne hrun
    have hempty : fs.isEmpty = false := by
      cases fs with
      | nil => exact absurd rfl hne
      | cons a l => rfl
    simp only [selectorRun, hp, ht, hv, mergeValidators, hfs, hempty, truthy]
    simp only [Bool.false_eq_true, if_false, hrun, if_true]
  · intro h h₁ h₂ source tv fields p f vs fs results hp ht hf hv hfs hne hrun
    have hempty : fs.isEmpty = false := by
      cases fs with
      | nil => exact absurd rfl hne
      | cons a l => rfl
    simp only [selectorRun, hp, ht, hf, hv, mergeValidators, hfs, hempty, truthy]
    simp only [Bool.false_eq_true, if_false, hrun, if_true]

theorem c2_amended_witness :
    (resolveSchemaF 2 c2Schema c2Heap (.vRef 0) =
      .ok (⟨[.obj [("Age", .vNum 20)], .obj [("age", .vRef 2)],
             .arr [.vNull] []]⟩, .vRef 1)) ∧
    (selectorRun c2Heap (.vRef 0)
        [("path", .sstr "Age"), ("validators", .sfun (minValidatorFn 12))] =
      .ok ((c2Heap.alloc (.arr [JsVal.vNull] [])).1,
           .vRef (c2Heap.alloc (.arr [JsVal.vNull] [])).2)) ∧
    (selectorRun c2Heap (.vRef 0)
        [("path", .sstr "Age"), ("transform", .sfun add1Fn)] =
      .ok (c2Heap, .vNum 21)) ∧
    (selectorRun c2Heap (.vRef 0)
        [("path", .sstr "Age"), ("transform", .sfun add1Fn),
         ("validators", .sfun (minValidatorFn 12))] =
      .ok ((c2Heap.alloc (.arr [JsVal.vNull] [])).1,
           .vRef (c2Heap.alloc (.arr [JsVal.vNull] [])).2)) ∧
    (selectorRun c2Heap (.vRef 0) [("path", .sstr "Age")] =
      .ok (c2Heap, .vNum 20)) := by
  refine ⟨?_, ?_, ?_, ?_, ?_⟩
  · exact (c2_amended.1 1 [] []
      "age" [("path", .sstr "Age"), ("validators", .sfun (minValidatorFn 12))]
      c2Heap _ (.vRef 0) rfl rfl).trans rfl
  · exact c2_amended.2.2.2.1 c2Heap c2Heap (.vRef 0)
      [("path", .sstr "Age"), ("validators", .sfun (minValidatorFn 12))] "Age"
      (.sfun (minValidatorFn 12)) [.vfn (minValidatorFn 12)] [.vNull]
      rfl rfl rfl rfl (List.cons_ne_nil _ _) rfl
  · exact (c2_amended.2.2.1 c2Heap (.vRef 0)
      [("path", .sstr "Age"), ("transform", .sfun add1Fn)] "Age" add1Fn
      rfl rfl rfl).trans rfl
  · exact c2_amended.2.2.2.2 c2Heap c2Heap c2Heap (.vRef 0) (.vNum 21)
      [("path", .sstr "Age"), ("transform", .sfun add1Fn),
       ("validators", .sfun (minValidatorFn 12))] "Age"
      add1Fn (.sfun (minValidatorFn 12)) [.vfn (minValidatorFn 12)] [.vNull]
      rfl rfl rfl rfl rfl (List.cons_ne_nil _ _) rfl
  · exact c2_amended.2.1 c2Heap (.vRef 0) [("path", .sstr "Age")] "Age" rfl rfl rfl

theorem splitDotChars_ne_nil : ∀ l : List Char, splitDotChars l ≠ [] := by
  intro l
  cases l with
  | nil => simp [splitDotChars]
  | cons c rest =>
    simp only [splitDotChars]
    cases splitDotChars rest with
    | nil => simp
    | cons g gs =>
      by_cases hc : c = '.' <;> simp [hc]

theorem splitDot_ne_nil (s : String) : splitDot s ≠ [] := by
  unfold splitDot
  intro hcontra
  rw [List.map_eq_nil_iff] at hcontra
  exact splitDotChars_ne_nil s.data hcontra

theorem getKey_str (s : String) : (getKey s).str = s := rfl

theorem wfKey_getKey (s : String) : wfKey (getKey s) = true := by
  simp [wfKey, getKey]

theorem map_str_getKey (l : List String) : (l.map getKey).map SKey.str = l := by
  rw [List.map_map]
  have hid : SKey.str ∘ getKey = id := funext (fun s => rfl)
  rw [hid, List.map_id]

theorem set_ps_eq (h : Heap) (target : JsVal) (p : String) (v : JsVal)
    (hp : p.data ≠ []) :
    set h target (.ps p) v = setGo h target ((splitDot p).map getKey) v := by
  have hne : p.data.isEmpty = false := by
    cases hd : p.data with
    | nil => exact absurd hd hp
    | cons c r => rfl
  simp [set, pathIsEmptyJs, hne]

/-- Claim C4 (amended): for a target object and a dotted path with
comma-free segments (and a comma-free-keyed heap): after
`set(target, path, value)` on a path not already present,
`get(target, path) == value`; a second `set` with a different value is a
non-destructive no-op only when the path has a single segment — for a
multi-segment path the second `set` rebuilds the intermediate chain
(because `hasOwn(target, path)` probes the comma-joined key and misses)
and the stored value is *replaced*. -/
theorem c4_amended (h : Heap) (a : Addr) (p : String) (v₁ v₂ : JsVal)
    (hH : HeapOK h) (hobj : ∃ fields, h.get? a = some (HObj.obj fields))
    (hp : p.data ≠ [])
    (hsegs : ∀ s ∈ splitDot p, noComma s = true)
    (hfresh : ∀ s0, splitDot p = [s0] → jsIndex h (.vRef a) s0 = .vUndef)
    (hv₁ : v₁ ≠ .vUndef) :
    ∃ h₁ r₁ h₂ r₂,
      set h (.vRef a) (.ps p) v₁ = .ok (h₁, r₁) ∧
      get h₁ (.vRef a) p = v₁ ∧
      set h₁ (.vRef a) (.ps p) v₂ = .ok (h₂, r₂) ∧
      get h₂ (.vRef a) p = (if (splitDot p).length = 1 then v₁ else v₂) := by
  obtain ⟨fields, hga⟩ := hobj
  have hlt : a < h.size := Heap.lt_of_get?_some hga
  obtain ⟨s₀, rest, hsplit⟩ : ∃ s₀ rest, splitDot p = s₀ :: rest := by
    cases hs : splitDot p with
    | nil => exact absurd hs (splitDot_ne_nil p)
    | cons x xs => exact ⟨x, xs, rfl⟩
  have hkeys : (splitDot p).map getKey = getKey s₀ :: rest.map getKey := by
    rw [hsplit, List.map_cons]
  have hkhyp : noComma (getKey s₀).str = true ∧ wfKey (getKey s₀) = true :=
    ⟨hsegs s₀ (by rw [hsplit]; exact List.mem_cons_self _ _), wfKey_getKey s₀⟩
  have hkshyp : ∀ k' ∈ rest.map getKey, noComma k'.str = true ∧ wfKey k' = true := by
    intro k' hm
    obtain ⟨s, hs, rfl⟩ := List.mem_map.mp hm
    exact ⟨hsegs s (by rw [hsplit]; exact List.mem_cons_of_mem _ hs), wfKey_getKey s⟩
  have harr1 : ∀ e pr, h.get? a = some (HObj.arr e pr) →
      (canonInt? (getKey s₀).str).isSome = true := by
    intro e pr hcontra
    rw [hga] at hcontra
    exact absurd hcontra (by simp)
  obtain ⟨h₁, r₁, heq₁, _, _, hH₁, hmulti₁, hsingle₁, hobj₁⟩ :=
    setGo_spec (rest.map getKey) (getKey s₀) h a v₁ hH hlt hkhyp hkshyp harr1
  obtain ⟨fields₁, hga₁⟩ := hobj₁ ⟨fields, hga⟩
  have hlt₁ : a < h₁.size := Heap.lt_of_get?_some hga₁
  have harr2 : ∀ e pr, h₁.get? a = some (HObj.arr e pr) →
      (canonInt? (getKey s₀).str).isSome = true := by
    intro e pr hcontra
    rw [hga₁] at hcontra
    exact absurd hcontra (by simp)
  obtain ⟨h₂, r₂, heq₂, _, _, _, hmulti₂, hsingle₂, _⟩ :=
    setGo_spec (rest.map getKey) (getKey s₀) h₁ a v₂ hH₁ hlt₁ hkhyp hkshyp harr2
  refine ⟨h₁, r₁, h₂, r₂, ?_, ?_, ?_, ?_⟩
  · rw [set_ps_eq h _ p v₁ hp, hkeys]
    exact heq₁
  · cases rest with
    | nil =>
      have hidx : jsIndex h (.vRef a) s₀ = .vUndef := hfresh s₀ hsplit
      have hseg : getSegs h₁ [s₀] (.vRef a) = .ok v₁ := (hsingle₁ rfl).1 hidx
      unfold get
      rw [hsplit, hseg]
    | cons x xs =>
      have hm := hmulti₁ (by simp)
      rw [← hkeys, map_str_getKey] at hm
      unfold get
      rw [hm]
  · rw [set_ps_eq h₁ _ p v₂ hp, hkeys]
    exact heq₂
  · cases rest with
    | nil =>
      have hidx : jsIndex h (.vRef a) s₀ = .vUndef := hfresh s₀ hsplit
      have hseg : getSegs h₁ [s₀] (.vRef a) = .ok v₁ := (hsingle₁ rfl).1 hidx
      have hidx₁ : jsIndex h₁ (.vRef a) s₀ = v₁ := by
        rw [getSegs_single] at hseg
        exact Except.ok.inj hseg
      have hblocked := (hsingle₂ rfl).2
        (show jsIndex h₁ (.vRef a) s₀ ≠ .vUndef from by rw [hidx₁]; exact hv₁)
      have hlen1 : ([s₀] : List String).length = 1 := rfl
      rw [hsplit, if_pos hlen1, hblocked.1]
      unfold get
      rw [hsplit, getSegs_single, hidx₁]
    | cons x xs =>
      have hm := hmulti₂ (by simp)
      rw [← hkeys, map_str_getKey] at hm
      unfold get
      rw [hm, hsplit]
      rw [if_neg (by simp)]

theorem c4_amended_witness :
    ∃ h₁ r₁ h₂ r₂,
      set c4Heap (.vRef 0) (.ps "a.b") (.vNum 1) = .ok (h₁, r₁) ∧
      get h₁ (.vRef 0) "a.b" = .vNum 1 ∧
      set h₁ (.vRef 0) (.ps "a.b") (.vNum 2) = .ok (h₂, r₂) ∧
      get h₂ (.vRef 0) "a.b" = (if (splitDot "a.b").length = 1 then JsVal.vNum 1
        else JsVal.vNum 2) :=
  c4_amended c4Heap 0 "a.b" (.vNum 1) (.vNum 2)
    (HeapOK_of_bool (by decide)) ⟨[], rfl⟩ (by decide) (by decide)
    (by
      intro s0 hc
      have := congrArg List.length hc
      simp [show splitDot "a.b" = ["a", "b"] from rfl] at this)
    (by decide)

/-! ### Frame lemmas for the resolver (claim C9) -/

theorem Frames.rfl (n₀ : Nat) (h : Heap) : Frames n₀ h h :=
  ⟨Nat.le_refl _, fun _ _ => Eq.refl _⟩

theorem Frames.trans {n₀ : Nat} {h₁ h₂ h₃ : Heap}
    (f₁ : Frames n₀ h₁ h₂) (f₂ : Frames n₀ h₂ h₃) : Frames n₀ h₁ h₃ :=
  ⟨Nat.le_trans f₁.1 f₂.1, fun b hb => (f₂.2 b hb).trans (f₁.2 b hb)⟩

theorem digitChar_isDigit (d : Nat) : (digitChar d).isDigit = true := by
  unfold digitChar
  split <;> decide

theorem natToCharsAux_digits : ∀ (fuel n : Nat) (acc : List Char),
    (∀ c ∈ acc, c.isDigit = true) → ∀ c ∈ natToCharsAux fuel n acc, c.isDigit = true := by
  intro fuel
  induction fuel with
  | zero =>
    intro n acc hacc c hc
    exact hacc c hc
  | succ f ih =>
    intro n acc hacc c hc
    simp only [natToCharsAux] at hc
    by_cases hn : n < 10
    · rw [if_pos hn] at hc
      rcases List.mem_cons.mp hc with h1 | h2
      · rw [h1]; exact digitChar_isDigit n
      · exact hacc c h2
    · rw [if_neg hn] at hc
      refine ih (n / 10) _ ?_ c hc
      intro c' hc'
      rcases List.mem_cons.mp hc' with h1 | h2
      · rw [h1]; exact digitChar_isDigit _
      · exact hacc c' h2

theorem natToString_noComma (n : Nat) : noComma (natToString n) = true := by
  have hall : ∀ c ∈ (natToString n).data, c.isDigit = true :=
    natToCharsAux_digits (n + 1) n [] (fun c hc => by cases hc)
  unfold noComma
  cases hc : (natToString n).data.contains ',' with
  | false => rfl
  | true =>
    have := hall ',' (List.elem_iff.mp hc)
    exact absurd this (by decide)

theorem foldl_assocSet_keysOK :
    ∀ (adds res : List (String × JsVal)),
    (∀ kv ∈ adds, noComma kv.1 = true) → res.all (fun kv => noComma kv.1) = true →
    (adds.foldl (fun r kv => assocSet kv.1 kv.2 r) res).all (fun kv => noComma kv.1) = true := by
  intro adds
  induction adds with
  | nil =>
    intro res _ hres
    exact hres
  | cons kv rest ih =>
    intro res hadds hres
    simp only [List.foldl_cons]
    exact ih _ (fun kv' hm => hadds kv' (List.mem_cons_of_mem _ hm))
      (assocSet_keysOK (hadds kv (List.mem_cons_self _ _)) kv.2 res hres)

theorem spreadInto_keysOK {h : Heap} (hH : HeapOK h) (res : List (String × JsVal))
    (hres : res.all (fun kv => noComma kv.1) = true) (e : JsVal) :
    (spreadInto h res e).all (fun kv => noComma kv.1) = true := by
  cases e with
  | vRef a =>
    cases hg : h.get? a with
    | none => simpa [spreadInto, hg] using hres
    | some o =>
      cases o with
      | obj fields =>
        simp only [spreadInto, hg]
        exact foldl_assocSet_keysOK fields res
          (fun kv hm => (List.all_eq_true.mp (hH a _ hg)) kv hm) hres
      | arr elems props =>
        simp only [spreadInto, hg]
        refine foldl_assocSet_keysOK _ res ?_ hres
        intro kv hm
        rcases List.mem_append.mp hm with h1 | h2
        · obtain ⟨pair, _, rfl⟩ := List.mem_map.mp h1
          exact natToString_noComma _
        · exact (List.all_eq_true.mp (hH a _ hg)) kv h2
  | vStr s =>
    simp only [spreadInto]
    refine foldl_assocSet_keysOK _ res ?_ hres
    intro kv hm
    obtain ⟨pair, _, rfl⟩ := List.mem_map.mp hm
    exact natToString_noComma _
  | vNull => exact hres
  | vUndef => exact hres
  | vNum n => exact hres
  | vBool b => exact hres

theorem jsAssignFrom_spec {h : Heap} (hH : HeapOK h) (aggAddr : Addr) (src : JsVal) :
    (jsAssignFrom h aggAddr src).size = h.size ∧
    (∀ b, b ≠ aggAddr → (jsAssignFrom h aggAddr src).get? b = h.get? b) ∧
    HeapOK (jsAssignFrom h aggAddr src) ∧
    (∀ fields, h.get? aggAddr = some (HObj.obj fields) →
      ∃ fields', (jsAssignFrom h aggAddr src).get? aggAddr = some (HObj.obj fields')) := by
  cases hg : h.get? aggAddr with
  | none =>
    have hred : jsAssignFrom h aggAddr src = h := by simp [jsAssignFrom, hg]
    rw [hred]
    refine ⟨rfl, fun _ _ => rfl, hH, ?_⟩
    intro fields hc
    exact Option.noConfusion hc
  | some o =>
    cases o with
    | obj fields =>
      have hred : jsAssignFrom h aggAddr src =
          h.upd aggAddr (.obj (spreadInto h fields src)) := by
        simp [jsAssignFrom, hg]
      rw [hred]
      have hlt := Heap.lt_of_get?_some hg
      refine ⟨Heap.size_upd _ _ _, ?_, ?_, ?_⟩
      · intro b hb
        exact Heap.get?_upd_ne _ _ _ _ (fun e => hb e.symm)
      · exact hH.upd (show cellKeysOK (.obj (spreadInto h fields src)) = true from
          spreadInto_keysOK hH fields (hH aggAddr _ hg) src) aggAddr
      · intro fields₀ hf
        exact ⟨spreadInto h fields src, Heap.get?_upd_self _ _ _ hlt⟩
    | arr elems props =>
      have hred : jsAssignFrom h aggAddr src = h := by simp [jsAssignFrom, hg]
      rw [hred]
      refine ⟨rfl, fun _ _ => rfl, hH, ?_⟩
      intro fields hc
      exact absurd hc (by simp)

theorem aggStep_spec {n₀ : Nat} {h h' : Heap} {source : JsVal} {aggAddr : Addr} {pv : SVal}
    (hpv : ∀ pth, pv = SVal.sstr pth → ∀ s ∈ splitDot pth, noComma s = true)
    (hH : HeapOK h) (hn₀ : n₀ ≤ h.size) (hagglo : n₀ ≤ aggAddr) (hagghi : aggAddr < h.size)
    (hobj : ∃ fields, h.get? aggAddr = some (HObj.obj fields))
    (heq : aggStep h source aggAddr pv = .ok h') :
    Frames n₀ h h' ∧ HeapOK h' ∧ aggAddr < h'.size ∧
      ∃ fields', h'.get? aggAddr = some (HObj.obj fields') := by
  cases pv with
  | sstr pth =>
    simp only [aggStep] at heq
    by_cases hpe : pth.data = []
    · -- isEmpty(path): set returns the target; Object.assign(agg, agg)
      have hpee : pth.data.isEmpty = true := by rw [hpe]; rfl
      rw [show set h (.vRef aggAddr) (.ps pth) (get h source pth) = .ok (h, .vRef aggAddr) from by
        simp [set, pathIsEmptyJs, hpee]] at heq
      simp only at heq
      obtain ⟨hsz, hfr, hok, hobjp⟩ := jsAssignFrom_spec hH aggAddr (.vRef aggAddr)
      cases heq
      obtain ⟨fields, hf⟩ := hobj
      refine ⟨⟨Nat.le_of_eq hsz.symm, fun b hb => hfr b ?_⟩, hok, by
        rw [hsz]; exact hagghi, hobjp fields hf⟩
      intro he
      exact absurd hagglo (by rw [he] at hb; exact Nat.not_le_of_lt hb)
    · obtain ⟨s₀, rest, hsplit⟩ : ∃ s₀ rest, splitDot pth = s₀ :: rest := by
        cases hs : splitDot pth with
        | nil => exact absurd hs (splitDot_ne_nil pth)
        | cons x xs => exact ⟨x, xs, rfl⟩
      have hsegsOK : ∀ s ∈ splitDot pth, noComma s = true := hpv pth rfl
      obtain ⟨fields, hf⟩ := hobj
      have harr : ∀ e pr, h.get? aggAddr = some (HObj.arr e pr) →
          (canonInt? (getKey s₀).str).isSome = true := by
        intro e pr hc
        rw [hf] at hc
        exact absurd hc (by simp)
      obtain ⟨h₁, ret, heqgo, hsz₁, hfr₁, hH₁, _, _, hobj₁⟩ :=
        setGo_spec (rest.map getKey) (getKey s₀) h aggAddr (get h source pth) hH hagghi
          ⟨hsegsOK s₀ (by rw [hsplit]; exact List.mem_cons_self _ _), wfKey_getKey s₀⟩
          (by
            intro k' hm
            obtain ⟨s, hs, rfl⟩ := List.mem_map.mp hm
            exact ⟨hsegsOK s (by rw [hsplit]; exact List.mem_cons_of_mem _ hs),
              wfKey_getKey s⟩)
          harr
      rw [set_ps_eq h _ pth _ hpe, hsplit, List.map_cons, heqgo] at heq
      simp only at heq
      obtain ⟨hsz₂, hfr₂, hok₂, hobjp₂⟩ := jsAssignFrom_spec hH₁ aggAddr ret
      cases heq
      obtain ⟨fields₁, hf₁⟩ := hobj₁ ⟨fields, hf⟩
      refine ⟨?_, hok₂, ?_, hobjp₂ fields₁ hf₁⟩
      · refine @Frames.trans n₀ _ _ _ ⟨hsz₁, fun b hb => hfr₁ b ?_ ?_⟩
          ⟨Nat.le_of_eq hsz₂.symm, fun b hb => hfr₂ b ?_⟩
        · intro he
          exact absurd hagglo (by rw [he] at hb; exact Nat.not_le_of_lt hb)
        · exact Nat.lt_of_lt_of_le hb hn₀
        · intro he
          exact absurd hagglo (by rw [he] at hb; exact Nat.not_le_of_lt hb)
      · rw [hsz₂]
        exact Nat.lt_of_lt_of_le hagghi hsz₁
  | sfun f =>
    cases heq
    obtain ⟨fields, hf⟩ := hobj
    exact ⟨Frames.rfl n₀ _, hH, hagghi, fields, hf⟩
  | sarr elems =>
    cases heq
    obtain ⟨fields, hf⟩ := hobj
    exact ⟨Frames.rfl n₀ _, hH, hagghi, fields, hf⟩
  | sobj fields₀ =>
    cases heq
    obtain ⟨fields, hf⟩ := hobj
    exact ⟨Frames.rfl n₀ _, hH, hagghi, fields, hf⟩
  | svnull =>
    cases heq
    obtain ⟨fields, hf⟩ := hobj
    exact ⟨Frames.rfl n₀ _, hH, hagghi, fields, hf⟩
  | svundef =>
    cases heq
    obtain ⟨fields, hf⟩ := hobj
    exact ⟨Frames.rfl n₀ _, hH, hagghi, fields, hf⟩
  | sother tag =>
    cases heq
    obtain ⟨fields, hf⟩ := hobj
    exact ⟨Frames.rfl n₀ _, hH, hagghi, fields, hf⟩

theorem aggGo_spec {n₀ : Nat} :
    ∀ (elems : List SVal) {h h' : Heap} {source : JsVal} {aggAddr : Addr},
    (∀ e ∈ elems, ∀ pth, e = SVal.sstr pth → ∀ s ∈ splitDot pth, noComma s = true) →
    HeapOK h → n₀ ≤ h.size → n₀ ≤ aggAddr → aggAddr < h.size →
    (∃ fields, h.get? aggAddr = some (HObj.obj fields)) →
    aggGo elems h source aggAddr = .ok h' →
    Frames n₀ h h' ∧ HeapOK h' := by
  intro elems
  induction elems with
  | nil =>
    intro h h' source aggAddr _ hH _ _ _ _ heq
    cases heq
    exact ⟨Frames.rfl n₀ _, hH⟩
  | cons pv rest ih =>
    intro h h' source aggAddr hpv hH hn₀ hlo hhi hobj heq
    simp only [aggGo] at heq
    cases hstep : aggStep h source aggAddr pv with
    | error m => rw [hstep] at heq; exact Except.noConfusion heq
    | ok h₁ =>
      rw [hstep] at heq
      obtain ⟨hfr, hH₁, hhi₁, hobj₁⟩ :=
        aggStep_spec (fun pth hp => hpv pv (List.mem_cons_self _ _) pth hp)
          hH hn₀ hlo hhi hobj hstep
      obtain ⟨hfr', hH'⟩ := ih (fun e hm => hpv e (List.mem_cons_of_mem _ hm)) hH₁
        (Nat.le_trans hn₀ hfr.1) hlo hhi₁ hobj₁ heq
      exact ⟨Frames.trans hfr hfr', hH'⟩

theorem runEntries_spec :
    ∀ (es : List VEntry) {h h' : Heap} {input : JsVal} {rs : List JsVal},
    (∀ e ∈ es, ∀ f, e = VEntry.vfn f → GoodFun f) → HeapOK h →
    runEntries es h input = .ok (h', rs) →
    h.size ≤ h'.size ∧ (∀ b, b < h.size → h'.get? b = h.get? b) ∧ HeapOK h' := by
  intro es
  induction es with
  | nil =>
    intro h h' input rs _ hH heq
    cases heq
    exact ⟨Nat.le_refl _, fun _ _ => rfl, hH⟩
  | cons e rest ih =>
    intro h h' input rs hgood hH heq
    simp only [runEntries] at heq
    split at heq
    · exact Except.noConfusion heq
    · rename_i h₁ r happ
      split at heq
      · exact Except.noConfusion heq
      · rename_i h₂ rs' hrest
        cases heq
        have hf : ∃ f, e = VEntry.vfn f := by
          cases e with
          | vfn f => exact ⟨f, rfl⟩
          | vnull => exact absurd happ (by simp [applyEntry])
          | vundef => exact absurd happ (by simp [applyEntry])
          | other t => exact absurd happ (by simp [applyEntry])
        obtain ⟨f, rfl⟩ := hf
        have hgf : GoodFun f := hgood _ (List.mem_cons_self _ _) f rfl
        obtain ⟨hsz₁, hfr₁, hH₁⟩ := hgf h [input] h₁ r hH happ
        obtain ⟨hsz₂, hfr₂, hH₂⟩ :=
          ih (fun e' hm => hgood e' (List.mem_cons_of_mem _ hm)) hH₁ hrest
        refine ⟨Nat.le_trans hsz₁ hsz₂, ?_, hH₂⟩
        intro b hb
        rw [hfr₂ b (Nat.lt_of_lt_of_le hb hsz₁), hfr₁ b hb]

theorem mergeValidators_some {l : List VEntry}
    {g : Heap → JsVal → EX (Heap × List JsVal)} (hm : mergeValidators l = some g) :
    g = fun h value => runEntries (l.filter (fun v => !isNullE v)) h value := by
  simp only [mergeValidators] at hm
  split at hm
  · exact Option.noConfusion hm
  · exact (Option.some.inj hm).symm

theorem selectorRun_spec {h h' : Heap} {source v : JsVal} {fields : List (String × SVal)}
    (htr : ∀ f, assocGetS "transform" fields = some (.sfun f) → GoodFun f)
    (hval : ∀ vs, assocGetS "validators" fields = some vs →
      ∀ e ∈ selValidatorEntries vs, ∀ f, e = VEntry.vfn f → GoodFun f)
    (hH : HeapOK h)
    (heq : selectorRun h source fields = .ok (h', v)) :
    h.size ≤ h'.size ∧ (∀ b, b < h.size → h'.get? b = h.get? b) ∧ HeapOK h' := by
  simp only [selectorRun] at heq
  split at heq
  · exact Except.noConfusion heq
  · rename_i h₁ inputValue hstep
    have hstep_props : h.size ≤ h₁.size ∧ (∀ b, b < h.size → h₁.get? b = h.get? b) ∧
        HeapOK h₁ := by
      cases htl : assocGetS "transform" fields with
      | none =>
        rw [htl] at hstep
        cases hstep
        exact ⟨Nat.le_refl _, fun _ _ => rfl, hH⟩
      | some tv =>
        cases tv with
        | sfun f =>
          rw [htl] at hstep
          exact htr f htl h _ h₁ inputValue hH hstep
        | sstr s => rw [htl] at hstep; exact Except.noConfusion hstep
        | sarr es => rw [htl] at hstep; exact Except.noConfusion hstep
        | sobj fs => rw [htl] at hstep; exact Except.noConfusion hstep
        | svnull => rw [htl] at hstep; exact Except.noConfusion hstep
        | svundef => rw [htl] at hstep; exact Except.noConfusion hstep
        | sother t => rw [htl] at hstep; exact Except.noConfusion hstep
    obtain ⟨hsz₁, hfr₁, hH₁⟩ := hstep_props
    split at heq
    · cases heq
      exact ⟨hsz₁, hfr₁, hH₁⟩
    · rename_i vs hvl
      split at heq
      · exact Except.noConfusion heq
      · rename_i vfn hmv
        split at heq
        · exact Except.noConfusion heq
        · rename_i h₂ results hrun
          rw [mergeValidators_some hmv] at hrun
          simp only [] at hrun
          obtain ⟨hsz₂, hfr₂, hH₂⟩ := runEntries_spec _
            (fun e hm f hef =>
              hval vs hvl e (List.mem_of_mem_filter hm) f hef)
            hH₁ hrun
          have ht : truthy (.vRef (h₂.alloc (.arr results [])).2) = true := rfl
          rw [if_pos ht] at heq
          cases heq
          refine ⟨?_, ?_, hH₂.alloc (by rfl)⟩
          · rw [Heap.alloc_size]
            exact Nat.le_trans (Nat.le_trans hsz₁ hsz₂) (Nat.le_succ _)
          · intro b hb
            rw [Heap.get?_alloc_lt h₂ _ b
              (Nat.lt_of_lt_of_le hb (Nat.le_trans hsz₁ hsz₂))]
            rw [hfr₂ b (Nat.lt_of_lt_of_le hb hsz₁), hfr₁ b hb]

/-- The property the nested-schema resolver parameter must satisfy for
the frame argument: on frame-class schemas it mutates nothing below `n₀`
and keeps the key discipline. -/
def RecurOK (n₀ : Nat)
    (recur : List (String × SVal) → Heap → JsVal → EX (Heap × JsVal)) : Prop :=
  ∀ fields h source h' v, GoodSchema fields → HeapOK h → n₀ ≤ h.size →
    recur fields h source = .ok (h', v) → Frames n₀ h h' ∧ HeapOK h'

theorem jsWrite_frames {n₀ : Nat} {h : Heap} (hH : HeapOK h) {k : String}
    (hkey : noComma k = true) {acc : Addr} (halo : n₀ ≤ acc) (value : JsVal) :
    Frames n₀ h (jsWrite h (.vRef acc) k value) ∧
      HeapOK (jsWrite h (.vRef acc) k value) := by
  refine ⟨⟨Nat.le_of_eq (jsWrite_size h _ _ _).symm, ?_⟩, jsWrite_HeapOK hH hkey _ _⟩
  intro b hb
  have hba : b ≠ acc := by omega
  exact jsWrite_get?_ne h acc k value b hba

theorem entryStep_spec {n₀ : Nat}
    {recur : List (String × SVal) → Heap → JsVal → EX (Heap × JsVal)}
    (hrec : RecurOK n₀ recur) {k : String} {v : SVal}
    (hkey : noComma k = true) (hacc : GoodAcc v) {h h' : Heap} {source : JsVal} {acc : Addr}
    (hH : HeapOK h) (hn₀ : n₀ ≤ h.size) (halo : n₀ ≤ acc)
    (heq : entryStep recur k v h source acc = .ok h') :
    Frames n₀ h h' ∧ HeapOK h' := by
  cases hacc with
  | path s =>
    simp only [entryStep, getActionType] at heq
    have heq' : jsWrite h (.vRef acc) k (get h source s) = h' := by
      cases heq
      rfl
    rw [← heq']
    exact jsWrite_frames hH hkey halo _
  | agg elems hp =>
    simp only [entryStep, getActionType, aggregatorRun] at heq
    cases hgo : aggGo elems (h.alloc (.obj [])).1 source (h.alloc (.obj [])).2 with
    | error m =>
      rw [hgo] at heq
      exact Except.noConfusion heq
    | ok h₁ =>
      rw [hgo] at heq
      have heq' : jsWrite h₁ (.vRef acc) k (.vRef (h.alloc (.obj [])).2) = h' := by
        cases heq
        rfl
      have halloc : Frames n₀ h (h.alloc (.obj [])).1 :=
        ⟨by rw [Heap.alloc_size]; exact Nat.le_succ _,
         fun b hb => Heap.get?_alloc_lt h _ b (Nat.lt_of_lt_of_le hb hn₀)⟩
      obtain ⟨hfr, hH₁⟩ := aggGo_spec elems
        (by
          intro e hm pth hep s hs
          obtain ⟨p, hp₂, hsegs⟩ := hp e hm
          rw [hp₂] at hep
          cases hep
          exact hsegs s hs)
        (hH.alloc (by rfl))
        (by rw [Heap.alloc_size]; exact Nat.le_trans hn₀ (Nat.le_succ _))
        (show n₀ ≤ h.size from hn₀)
        (by rw [Heap.alloc_size]; exact Nat.lt_succ_self _)
        ⟨[], Heap.get?_alloc_self h _⟩
        hgo
      rw [← heq']
      obtain ⟨hfw, hHw⟩ := jsWrite_frames hH₁ hkey halo (.vRef (h.alloc (.obj [])).2)
      exact ⟨Frames.trans (Frames.trans halloc hfr) hfw, hHw⟩
  | selector fields hsel htr hval =>
    have hat : getActionType k (.sobj fields) = .ok .FieldSelector := by
      simp [getActionType, hsel]
    simp only [entryStep, hat] at heq
    cases hsr : selectorRun h source fields with
    | error m =>
      rw [hsr] at heq
      exact Except.noConfusion heq
    | ok p =>
      obtain ⟨h₁, value⟩ := p
      rw [hsr] at heq
      have heq' : jsWrite h₁ (.vRef acc) k value = h' := by
        cases heq
        rfl
      obtain ⟨hsz, hfr, hH₁⟩ := selectorRun_spec htr hval hH hsr
      rw [← heq']
      obtain ⟨hfw, hHw⟩ := jsWrite_frames hH₁ hkey halo value
      exact ⟨Frames.trans ⟨hsz, fun b hb => hfr b (Nat.lt_of_lt_of_le hb hn₀)⟩ hfw, hHw⟩
  | nested fields hsel hkeys hrec' =>
    have hat : getActionType k (.sobj fields) = .ok .FieldEntry := by
      simp [getActionType, hsel]
    simp only [entryStep, hat] at heq
    cases hrc : recur fields h source with
    | error m =>
      rw [hrc] at heq
      exact Except.noConfusion heq
    | ok p =>
      obtain ⟨h₁, value⟩ := p
      rw [hrc] at heq
      have heq' : jsWrite h₁ (.vRef acc) k value = h' := by
        cases heq
        rfl
      obtain ⟨hfr, hH₁⟩ := hrec fields h source h₁ value
        (fun kv hm => ⟨hkeys kv hm, hrec' kv hm⟩) hH hn₀ hrc
      rw [← heq']
      obtain ⟨hfw, hHw⟩ := jsWrite_frames hH₁ hkey halo value
      exact ⟨Frames.trans hfr hfw, hHw⟩

theorem goEntries_spec {n₀ : Nat}
    {recur : List (String × SVal) → Heap → JsVal → EX (Heap × JsVal)}
    (hrec : RecurOK n₀ recur) :
    ∀ (entries : List (String × SVal)) {h h' : Heap} {source : JsVal} {acc : Addr},
    GoodSchema entries → HeapOK h → n₀ ≤ h.size → n₀ ≤ acc →
    goEntries recur entries h source acc = .ok h' →
    Frames n₀ h h' ∧ HeapOK h' := by
  intro entries
  induction entries with
  | nil =>
    intro h h' source acc _ hH _ _ heq
    cases heq
    exact ⟨Frames.rfl n₀ _, hH⟩
  | cons kv rest ih =>
    obtain ⟨k, v⟩ := kv
    intro h h' source acc hgs hH hn₀ halo heq
    simp only [goEntries] at heq
    cases hes : entryStep recur k v h source acc with
    | error m =>
      rw [hes] at heq
      exact Except.noConfusion heq
    | ok h₁ =>
      rw [hes] at heq
      obtain ⟨hfr₁, hH₁⟩ := entryStep_spec hrec
        (hgs (k, v) (List.mem_cons_self _ _)).1 (hgs (k, v) (List.mem_cons_self _ _)).2
        hH hn₀ halo hes
      obtain ⟨hfr₂, hH₂⟩ := ih (fun kv' hm => hgs kv' (List.mem_cons_of_mem _ hm))
        hH₁ (Nat.le_trans hn₀ hfr₁.1) halo heq
      exact ⟨Frames.trans hfr₁ hfr₂, hH₂⟩

theorem resolveSchemaF_spec :
    ∀ (fuel n₀ : Nat) (schema : List (String × SVal)) (h : Heap) (source : JsVal)
      (h' : Heap) (v : JsVal),
    GoodSchema schema → HeapOK h → n₀ ≤ h.size →
    resolveSchemaF fuel schema h source = .ok (h', v) →
    Frames n₀ h h' ∧ HeapOK h' := by
  intro fuel
  induction fuel with
  | zero =>
    intro n₀ schema h source h' v _ _ _ heq
    exact Except.noConfusion heq
  | succ f ih =>
    intro n₀ schema h source h' v hgs hH hn₀ heq
    simp only [resolveSchemaF, resolveBody] at heq
    cases hgo : goEntries (resolveSchemaF f) schema (h.alloc (.obj [])).1 source
        (h.alloc (.obj [])).2 with
    | error m =>
      rw [hgo] at heq
      exact Except.noConfusion heq
    | ok h₁ =>
      rw [hgo] at heq
      have heq' : h₁ = h' := by
        cases heq
        rfl
      subst heq'
      have hrec : RecurOK n₀ (resolveSchemaF f) :=
        fun fields hh src hh' vv hgs' hH' hn' hre =>
          ih n₀ fields hh src hh' vv hgs' hH' hn' hre
      have halloc : Frames n₀ h (h.alloc (.obj [])).1 :=
        ⟨by rw [Heap.alloc_size]; exact Nat.le_succ _,
         fun b hb => Heap.get?_alloc_lt h _ b (Nat.lt_of_lt_of_le hb hn₀)⟩
      obtain ⟨hfr, hH'⟩ := goEntries_spec hrec schema hgs (hH.alloc (by rfl))
        (by rw [Heap.alloc_size]; exact Nat.le_trans hn₀ (Nat.le_succ _))
        (show n₀ ≤ h.size from hn₀) hgo
      exact ⟨Frames.trans halloc hfr, hH'⟩

theorem mapResolve_spec (n₀ fuel : Nat) (schema : List (String × SVal))
    (hgs : GoodSchema schema) :
    ∀ (elems : List JsVal) {h h' : Heap} {rs : List JsVal},
    HeapOK h → n₀ ≤ h.size → mapResolve fuel schema elems h = .ok (h', rs) →
    Frames n₀ h h' ∧ HeapOK h' := by
  intro elems
  induction elems with
  | nil =>
    intro h h' rs hH _ heq
    cases heq
    exact ⟨Frames.rfl n₀ _, hH⟩
  | cons s rest ih =>
    intro h h' rs hH hn₀ heq
    simp only [mapResolve] at heq
    split at heq
    · exact Except.noConfusion heq
    · rename_i h₁ r hres
      split at heq
      · exact Except.noConfusion heq
      · rename_i h₂ rs' hrest
        cases heq
        obtain ⟨hfr₁, hH₁⟩ :=
          resolveSchemaF_spec fuel n₀ schema h s h₁ r hgs hH hn₀ hres
        obtain ⟨hfr₂, hH₂⟩ := ih hH₁ (Nat.le_trans hn₀ hfr₁.1) hrest
        exact ⟨Frames.trans hfr₁ hfr₂, hH₂⟩

/-- Claim C9 (amended): for a schema built only from path strings,
comma-free aggregator path lists, selectors whose transforms/validators
do not mutate pre-existing cells, and nested schemas — with comma-free
schema field names and comma-free own keys on every pre-existing heap
object — `hookup` leaves every pre-existing heap cell unchanged: the
engine writes only into cells it allocated itself, so the source object
and everything reachable from it are not mutated. -/
theorem c9_amended (fuel : Nat) (schema : List (String × SVal)) (h : Heap)
    (source : JsVal) (h' : Heap) (r : JsVal)
    (hgs : GoodSchema schema) (hH : HeapOK h)
    (heq : hookup fuel schema h source = .ok (h', r)) :
    ∀ b, b < h.size → h'.get? b = h.get? b := by
  unfold hookup at heq
  split at heq
  · rename_i elems hae
    split at heq
    · exact Except.noConfusion heq
    · rename_i h₁ rs hmr
      have heq' : (h₁.alloc (.arr rs [])).1 = h' := by
        cases heq
        rfl
      obtain ⟨hfr, hH₁⟩ :=
        mapResolve_spec h.size fuel schema hgs elems hH (Nat.le_refl _) hmr
      intro b hb
      rw [← heq', Heap.get?_alloc_lt h₁ _ b (Nat.lt_of_lt_of_le hb hfr.1)]
      exact hfr.2 b hb
  · rename_i hae
    exact fun b hb =>
      (resolveSchemaF_spec fuel h.size schema h source h' r hgs hH (Nat.le_refl _) heq).1.2 b hb

theorem c9_amended_witness :
    GoodSchema c9GoodSchema ∧ HeapOK c9GoodHeap ∧
    hookup 2 c9GoodSchema c9GoodHeap (.vRef 0) =
      .ok (⟨[.obj [("p", .vNum 1), ("q", .vRef 1)], .obj [("r", .vNum 2)],
             .obj [("x", .vNum 1), ("loc", .vRef 3)], .obj [("q", .vRef 4)],
             .obj [("r", .vNum 2)]]⟩, .vRef 2) ∧
    (⟨[.obj [("p", .vNum 1), ("q", .vRef 1)], .obj [("r", .vNum 2)],
       .obj [("x", .vNum 1), ("loc", .vRef 3)], .obj [("q", .vRef 4)],
       .obj [("r", .vNum 2)]]⟩ : Heap).get? 0 = c9GoodHeap.get? 0 ∧
    (⟨[.obj [("p", .vNum 1), ("q", .vRef 1)], .obj [("r", .vNum 2)],
       .obj [("x", .vNum 1), ("loc", .vRef 3)], .obj [("q", .vRef 4)],
       .obj [("r", .vNum 2)]]⟩ : Heap).get? 1 = c9GoodHeap.get? 1 := by
  have hgs : GoodSchema c9GoodSchema := by
    intro kv hm
    simp only [c9GoodSchema, List.mem_cons, List.not_mem_nil, or_false] at hm
    rcases hm with rfl | rfl
    · exact ⟨by decide, GoodAcc.path "p"⟩
    · refine ⟨by decide, GoodAcc.agg _ ?_⟩
      intro e he
      simp only [List.mem_cons, List.not_mem_nil, or_false] at he
      subst he
      exact ⟨"q.r", rfl, by decide⟩
  have hH : HeapOK c9GoodHeap := HeapOK_of_bool (by decide)
  have hrun : hookup 2 c9GoodSchema c9GoodHeap (.vRef 0) =
      .ok (⟨[.obj [("p", .vNum 1), ("q", .vRef 1)], .obj [("r", .vNum 2)],
             .obj [("x", .vNum 1), ("loc", .vRef 3)], .obj [("q", .vRef 4)],
             .obj [("r", .vNum 2)]]⟩, .vRef 2) := rfl
  have hfr := c9_amended 2 c9GoodSchema c9GoodHeap (.vRef 0) _ (.vRef 2) hgs hH hrun
  exact ⟨hgs, hH, hrun, hfr 0 (by decide), hfr 1 (by decide)⟩

end Hookup
